import Mathlib

set_option maxRecDepth 4000

/-!
Verification development for the Glove80 TailorKey HRM-transfer scripts.

Python strings are modeled as `List Char` (the scripts only manipulate
ASCII data, so `Char.toLower`/`Char.toUpper` model `str.lower`/`str.upper`).
Python dictionaries parsed from JSON are modeled as ordered association
lists, JSON trees by the inductive type `Json`, and fatal errors
(`SystemExit`, `KeyError`, `IndexError`, `AttributeError`) by
`Except String`.
-/

abbrev PyStr := List Char

/-- `str.lower()` (ASCII). -/
def lowerL (s : PyStr) : PyStr := s.map Char.toLower

/-- `str.upper()` (ASCII). -/
def upperL (s : PyStr) : PyStr := s.map Char.toUpper

/-- `str.capitalize()`: first character upper-cased, the rest lower-cased. -/
def pyCapitalize : PyStr → PyStr
  | [] => []
  | c :: cs => c.toUpper :: lowerL cs

/-- `str.replace(pat, "")`: removes every non-overlapping occurrence of
`pat`, scanning left to right without rescanning the seam left by a
removal (Python semantics). -/
def removePat (pat : PyStr) : PyStr → PyStr
  | [] => []
  | c :: cs =>
    if pat ≠ [] ∧ pat.isPrefixOf (c :: cs) then removePat pat ((c :: cs).drop pat.length)
    else c :: removePat pat cs
termination_by s => s.length
decreasing_by
  · have hp : 0 < pat.length := List.length_pos.mpr (by tauto)
    simp only [List.length_drop, List.length_cons]
    omega
  · simp only [List.length_cons]
    omega

/-- `token.replace("tkz", "")`, specialised to the fixed pattern so that it
is structurally recursive (same left-to-right non-overlapping semantics as
`removePat "tkz".data`). -/
def removeTkz : PyStr → PyStr
  | 't' :: 'k' :: 'z' :: rest => removeTkz rest
  | c :: rest => c :: removeTkz rest
  | [] => []

/-- `re.sub(r"\d+$", "", s)`: drop a maximal run of trailing digits. -/
def stripDigitsEnd (s : PyStr) : PyStr := (s.reverse.dropWhile Char.isDigit).reverse

/-- `re.sub(r"v\d+$", "", s)`: drop a trailing `v` followed by one or more
digits, when present. -/
def stripVNum (s : PyStr) : PyStr :=
  let r := s.reverse
  let ds := r.takeWhile Char.isDigit
  if ds ≠ [] ∧ (r.drop ds.length).head? = some 'v' then (r.drop (ds.length + 1)).reverse else s

/-- `str.strip("_")`: drop underscores from both ends. -/
def stripUnd (s : PyStr) : PyStr :=
  ((s.dropWhile (fun c => c == '_')).reverse.dropWhile (fun c => c == '_')).reverse

/-- `str.strip()`: drop whitespace from both ends. -/
def pyStrip (s : PyStr) : PyStr :=
  ((s.dropWhile Char.isWhitespace).reverse.dropWhile Char.isWhitespace).reverse

/-- Whether `p` occurs as a contiguous substring of `s`. -/
def hasSubB (p : PyStr) : PyStr → Bool
  | [] => p.isEmpty
  | c :: r => p.isPrefixOf (c :: r) || hasSubB p r

/-- `"_".join`-style concatenation of tokens separated by underscores. -/
def joinU (ts : List PyStr) : PyStr := List.intercalate ['_'] ts

/-- `str.split("_")`. Always returns a non-empty list (like Python). -/
def splitU : PyStr → List PyStr
  | [] => [[]]
  | '_' :: rest => [] :: splitU rest
  | c :: rest =>
    match splitU rest with
    | [] => [[c]]
    | t :: ts => (c :: t) :: ts

/-- A character matched by the regex class `[A-Za-z0-9_]`. -/
def isWordChar (c : Char) : Bool := c.isAlphanum || c == '_'

/- ===== hrm_utils.py ===== -/

/-- `FINGER_MAP` of hrm_utils.py as a lookup function. -/
def FINGER_MAP (t : PyStr) : Option PyStr :=
  if t = "index".data then some "Index".data
  else if t = "middle".data then some "Middle".data
  else if t = "middy".data then some "Middle".data
  else if t = "ring".data then some "Ring".data
  else if t = "ringy".data then some "Ring".data
  else if t = "pinky".data then some "Pinky".data
  else none

/-- `ROLE_MAP` of hrm_utils.py as a lookup function. -/
def ROLE_MAP (t : PyStr) : Option PyStr :=
  if t = "hold".data then some "Hold".data
  else if t = "tap".data then some "Tap".data
  else none

/-- `HAND_MAP` of hrm_utils.py as a lookup function. -/
def HAND_MAP (t : PyStr) : Option PyStr :=
  if t = "left".data then some "L".data
  else if t = "right".data then some "R".data
  else none

/-- `normalize_base`: the tail test `[0-9A-Za-z]*(_TKZ)?$` of the
version-suffix regex. -/
def vTail (l : PyStr) : Bool :=
  let r := l.dropWhile Char.isAlphanum
  r.isEmpty || r == "_TKZ".data

/-- `normalize_base(name)`: `re.sub(r"_v[0-9A-Za-z]*(_TKZ)?$", "", name)` —
cut the string at the leftmost position where `_v` begins a suffix of
alphanumerics optionally ending in `_TKZ`. -/
def normalize_base : PyStr → PyStr
  | '_' :: 'v' :: rest => if vTail rest then [] else '_' :: normalize_base ('v' :: rest)
  | c :: rest => c :: normalize_base rest
  | [] => []

/-- `clean_token(token)` of hrm_utils.py. -/
def clean_token (t : PyStr) : PyStr :=
  stripUnd (stripDigitsEnd (stripVNum (removeTkz (lowerL t))))

/-- `format_token(token)` of hrm_utils.py. -/
def format_token (t : PyStr) : PyStr :=
  let c := clean_token t
  if c.isEmpty then []
  else
    match FINGER_MAP c with
    | some f => f
    | none => pyCapitalize c

/-- `rename_hrm(value)` of hrm_utils.py. -/
def rename_hrm (value : PyStr) : PyStr :=
  if ¬ ("&HRM_".data.isPrefixOf value) then value
  else
    match splitU (normalize_base (value.drop 1)) with
    | p0 :: p1 :: prest =>
      if prest.length = 0 then value
      else if p0 ≠ "HRM".data then value
      else
        match HAND_MAP (lowerL p1) with
        | none => value
        | some hand =>
          match (prest.map format_token).filter (fun t => ¬ t.isEmpty) with
          | [] => value
          | t0 :: trest =>
            let re := trest.foldl (fun acc tok =>
              match ROLE_MAP (lowerL tok) with
              | some rv => if acc.1 = none then (some rv, acc.2) else (acc.1, acc.2 ++ [tok])
              | none => (acc.1, acc.2 ++ [tok])) ((none : Option PyStr), ([] : List PyStr))
            "&BHRM_".data ++ hand ++ ['_'] ++ t0
              ++ (if re.2.isEmpty then [] else ['_'] ++ joinU re.2)
              ++ (match re.1 with
                  | some r => ['_'] ++ r
                  | none => [])
    | _ => value

/-- `canonicalize_bhrm(value)` of hrm_utils.py. -/
def canonicalize_bhrm (value : PyStr) : PyStr :=
  if ¬ ("&BHRM_".data.isPrefixOf value) then value
  else
    match splitU (value.drop 6) with
    | [] => value
    | hand0 :: rest =>
      match rest with
      | [] => value
      | r0 :: rs =>
        let rp : Option PyStr × List PyStr :=
          match ROLE_MAP (lowerL ((r0 :: rs).getLastD [])) with
          | some r => (some r, (r0 :: rs).dropLast)
          | none => (none, r0 :: rs)
        match (rp.2.map format_token).filter (fun t => ¬ t.isEmpty) with
        | [] => value
        | c0 :: cN =>
          "&BHRM_".data ++ upperL hand0 ++ ['_'] ++ c0
            ++ (if cN.isEmpty then [] else ['_'] ++ joinU cN)
            ++ (match rp.1 with
                | some r => ['_'] ++ r
                | none => [])

/-- `rename_in_text(text)`: apply `rename_hrm` to every occurrence of the
regex `&HRM_[A-Za-z0-9_]+`. -/
def rename_in_text : PyStr → PyStr
  | '&' :: 'H' :: 'R' :: 'M' :: '_' :: rest =>
    let run := rest.takeWhile isWordChar
    if run.isEmpty then '&' :: rename_in_text ('H' :: 'R' :: 'M' :: '_' :: rest)
    else rename_hrm ("&HRM_".data ++ run) ++ rename_in_text (rest.drop run.length)
  | c :: rest => c :: rename_in_text rest
  | [] => []
termination_by s => s.length
decreasing_by
  · simp only [List.length_cons]
    omega
  · simp only [List.length_drop, List.length_cons]
    omega
  · simp only [List.length_cons]
    omega

/-- JSON-like values (the layout documents; numbers in these files are
integers). -/
inductive Json where
  | null
  | jbool (b : Bool)
  | jnum (n : Int)
  | jstr (s : String)
  | jarr (items : List Json)
  | jobj (fields : List (String × Json))

/-- `d.get(k)` on a parsed-JSON dictionary (keys are unique, first match). -/
def objGet (fields : List (String × Json)) (k : String) : Option Json :=
  (fields.find? (fun p => p.1 == k)).map (fun p => p.2)

/-- `d[k] = v`: overwrite the value at `k` in place, or append the pair. -/
def objSet (fields : List (String × Json)) (k : String) (v : Json) : List (String × Json) :=
  if fields.any (fun p => p.1 == k)
  then fields.map (fun p => if p.1 == k then (p.1, v) else p)
  else fields ++ [(k, v)]

/-- The string branch of `transform_strings` of hrm_utils.py. -/
def pyStringTransform (s : PyStr) : PyStr :=
  if "&BHRM_".data.isPrefixOf s then canonicalize_bhrm s
  else if "&HRM_".data.isPrefixOf s then rename_hrm s
  else if hasSubB "HRM_".data s then rename_in_text s
  else pyStrip (removePat " - TailorKey".data s)

/-- `transform_strings(obj)` of hrm_utils.py: recursive walk of a JSON tree
that rewrites only the string leaves. -/
def transform_strings : Json → Json
  | .jobj fields => .jobj (fields.attach.map (fun x => (x.1.1, transform_strings x.1.2)))
  | .jarr items => .jarr (items.attach.map (fun x => transform_strings x.1))
  | .jstr s => .jstr ⟨pyStringTransform s.data⟩
  | j => j
termination_by j => sizeOf j
decreasing_by
  · obtain ⟨⟨k, v⟩, hx⟩ := x
    have h1 := List.sizeOf_lt_of_mem hx
    simp at h1 ⊢
    omega
  · obtain ⟨y, hy⟩ := x
    have h1 := List.sizeOf_lt_of_mem hy
    simp at h1 ⊢
    omega

/- ===== copy_hrm_bindings.py ===== -/

/-- A hold-tap or macro definition: a dict with a `"name"` key and a
`"bindings"` list. -/
structure SDef where
  name : String
  bindings : List Json

/-- A key of a layer is a parsed-JSON dictionary. -/
abbrev KeyObj := List (String × Json)

/-- A loaded layout document (the fields the scripts touch). -/
structure Document where
  layer_names : List String
  layers : List (List KeyObj)
  holdTaps : List SDef
  macros : List SDef

/-- `{item["name"]: item for item in items}` followed by a lookup: the last
item with a given name wins, as in a Python dict comprehension. -/
def pyDictLookup (items : List SDef) (n : String) : Option SDef :=
  items.reverse.find? (fun it => it.name == n)

/-- The name referenced by one entry of a `bindings` list: a bare string is
itself a name, a dict contributes its `"value"` field when that is a
string; anything else contributes nothing. -/
def bindingRef : Json → Option String
  | .jstr s => some s
  | .jobj fs =>
    match objGet fs "value" with
    | some (.jstr s) => some s
    | _ => none
  | _ => none

/-- The `enqueue` closure of `collect_support_objects`: push a referenced
name onto the stack when it resolves to a not-yet-seen hold-tap or to a
not-yet-seen macro.  (The Python queue is `list.append`/`list.pop`, i.e. a
stack; the model keeps the stack top-first, so a push is `cons`.) -/
def enqueueStep (htL mcL : List SDef) (seenH seenM : List String)
    (q : List String) (b : Json) : List String :=
  match bindingRef b with
  | some n =>
    if ((pyDictLookup htL n).isSome && !(seenH.contains n)) ||
       ((pyDictLookup mcL n).isSome && !(seenM.contains n))
    then n :: q else q
  | none => q

/-- Number of distinct definition names not yet in `seen` (termination
measure for the collection loop). -/
def unseenCount (items : List SDef) (seen : List String) : Nat :=
  (((items.map SDef.name).dedup).filter (fun n => !(seen.contains n))).length

/-- The `while queue:` loop of `collect_support_objects`. -/
def collectGo (htL mcL : List SDef) (queue seenH seenM : List String)
    (accH accM : List SDef) : List SDef × List SDef :=
  match queue with
  | [] => (accH, accM)
  | n :: rest =>
    match hh : pyDictLookup htL n, hc : seenH.contains n with
    | some d, false =>
      let seenH2 := n :: seenH
      let q2 := d.bindings.foldl (enqueueStep htL mcL seenH2 seenM) rest
      collectGo htL mcL q2 seenH2 seenM (accH ++ [d]) accM
    | _, _ =>
      match hm : pyDictLookup mcL n, hc2 : seenM.contains n with
      | some d, false =>
        let seenM2 := n :: seenM
        let q2 := d.bindings.foldl (enqueueStep htL mcL seenH seenM2) rest
        collectGo htL mcL q2 seenH seenM2 accH (accM ++ [d])
      | _, _ => collectGo htL mcL rest seenH seenM accH accM
  termination_by (unseenCount htL seenH + unseenCount mcL seenM, queue.length)
  decreasing_by
  · apply Prod.Lex.left
    have hkey : unseenCount htL (n :: seenH) < unseenCount htL seenH := by
      have hd : d ∈ htL.reverse ∧ d.name = n :=
        ⟨List.mem_of_find?_eq_some hh, by have h2 := List.find?_some hh; simpa using h2⟩
      have hmem : n ∈ (htL.map SDef.name).dedup :=
        List.mem_dedup.mpr (List.mem_map.mpr ⟨d, List.mem_reverse.mp hd.1, hd.2⟩)
      have hnot : n ∉ seenH := by
        intro hn
        have h3 : seenH.elem n = true := List.elem_iff.mpr hn
        simp only [List.contains] at hc
        rw [hc] at h3
        exact Bool.noConfusion h3
      unfold unseenCount
      have hsub : ((htL.map SDef.name).dedup.filter (fun m => !((n :: seenH).contains m))).Sublist
          ((htL.map SDef.name).dedup.filter (fun m => !(seenH.contains m))) := by
        apply List.monotone_filter_right
        intro a ha
        simp only [List.contains_cons, Bool.not_eq_true', Bool.or_eq_false_iff] at ha ⊢
        exact ha.2
      rcases Nat.lt_or_ge ((htL.map SDef.name).dedup.filter (fun m => !((n :: seenH).contains m))).length
          ((htL.map SDef.name).dedup.filter (fun m => !(seenH.contains m))).length with hl | hl
      · exact hl
      · exfalso
        have heq := hsub.eq_of_length (Nat.le_antisymm hsub.length_le hl)
        have hin : n ∈ (htL.map SDef.name).dedup.filter (fun m => !(seenH.contains m)) := by
          rw [List.mem_filter]
          refine ⟨hmem, ?_⟩
          simp only [Bool.not_eq_true', List.contains]
          cases hcc : seenH.elem n with
          | false => rfl
          | true => exact absurd (List.elem_iff.mp hcc) hnot
        rw [← heq, List.mem_filter] at hin
        simp [List.contains, List.elem_cons] at hin
    omega
  · apply Prod.Lex.left
    have hkey : unseenCount mcL (n :: seenM) < unseenCount mcL seenM := by
      have hd : d ∈ mcL.reverse ∧ d.name = n :=
        ⟨List.mem_of_find?_eq_some hm, by have h2 := List.find?_some hm; simpa using h2⟩
      have hmem : n ∈ (mcL.map SDef.name).dedup :=
        List.mem_dedup.mpr (List.mem_map.mpr ⟨d, List.mem_reverse.mp hd.1, hd.2⟩)
      have hnot : n ∉ seenM := by
        intro hn
        have h3 : seenM.elem n = true := List.elem_iff.mpr hn
        simp only [List.contains] at hc2
        rw [hc2] at h3
        exact Bool.noConfusion h3
      unfold unseenCount
      have hsub : ((mcL.map SDef.name).dedup.filter (fun m => !((n :: seenM).contains m))).Sublist
          ((mcL.map SDef.name).dedup.filter (fun m => !(seenM.contains m))) := by
        apply List.monotone_filter_right
        intro a ha
        simp only [List.contains_cons, Bool.not_eq_true', Bool.or_eq_false_iff] at ha ⊢
        exact ha.2
      rcases Nat.lt_or_ge ((mcL.map SDef.name).dedup.filter (fun m => !((n :: seenM).contains m))).length
          ((mcL.map SDef.name).dedup.filter (fun m => !(seenM.contains m))).length with hl | hl
      · exact hl
      · exfalso
        have heq := hsub.eq_of_length (Nat.le_antisymm hsub.length_le hl)
        have hin : n ∈ (mcL.map SDef.name).dedup.filter (fun m => !(seenM.contains m)) := by
          rw [List.mem_filter]
          refine ⟨hmem, ?_⟩
          simp only [Bool.not_eq_true', List.contains]
          cases hcc : seenM.elem n with
          | false => rfl
          | true => exact absurd (List.elem_iff.mp hcc) hnot
        rw [← heq, List.mem_filter] at hin
        simp [List.contains, List.elem_cons] at hin
    omega
  · apply Prod.Lex.right
    simp only [List.length_cons]
    omega

/-- `collect_support_objects(source, names)` of copy_hrm_bindings.py.
`queue = list(names)` popped from the end is the reversed list consumed
from the front. -/
def collect_support_objects (source : Document) (names : List String) :
    List SDef × List SDef :=
  collectGo source.holdTaps source.macros names.reverse [] [] [] []

/-- A single-quote character (ASCII 39), used by Python string repr. -/
def sQuote : String := ⟨[Char.ofNat 39]⟩

/-- A layer name as Python repr renders it: wrapped in single quotes
(names are assumed to contain no quote or escape characters, which holds
for layer names). -/
def quoteName (s : String) : PyStr := sQuote.data ++ s.data ++ sQuote.data

/-- Comma-separated quoted names, as inside a Python list repr. -/
def joinComma : List String → PyStr
  | [] => []
  | [s] => quoteName s
  | s :: r :: rs => quoteName s ++ ", ".data ++ joinComma (r :: rs)

/-- `str(list_of_strings)` as Python formats it inside an f-string,
e.g. a two-element list renders as the names quoted and comma-separated
inside square brackets. -/
def pyReprList (l : List String) : String := ⟨"[".data ++ joinComma l ++ "]".data⟩

/-- `find_layer_index(layout, layer_name)` of copy_hrm_bindings.py.
`list.index` returns the first occurrence; on `ValueError` the script
raises `SystemExit` with a message listing the available names. -/
def find_layer_index (layout : Document) (layer_name : String) : Except String Nat :=
  match layout.layer_names.findIdx? (fun n => n == layer_name) with
  | some i => .ok i
  | none =>
    .error ("Layer " ++ sQuote ++ layer_name ++ sQuote ++ " not found. Available: "
      ++ pyReprList layout.layer_names)

/-- `upsert_named(collection, item)` of copy_hrm_bindings.py: replace the
first entry whose `"name"` equals the item's `"name"` in place, else
append.  `getName` models `dict.get("name")`. -/
def upsert_named {α : Type} (getName : α → Option String) : List α → α → List α
  | [], item => [item]
  | e :: rest, item =>
    if getName e = getName item then item :: rest
    else e :: upsert_named getName rest item

/-- Insert into a sorted duplicate-free list of integers. -/
def insSorted (x : Int) : List Int → List Int
  | [] => [x]
  | y :: ys => if x < y then x :: y :: ys else if x = y then y :: ys else y :: insSorted x ys

/-- `sorted(set(l))`: the sorted list of the distinct values of `l`. -/
def sortedDedup : List Int → List Int
  | [] => []
  | x :: xs => insSorted x (sortedDedup xs)

/-- Lookup in a mutable Python dict modeled as an append-only association
list: the last binding for a key wins. -/
def lookupLast (m : List (String × Nat)) (k : String) : Option Nat :=
  (m.reverse.find? (fun p => p.1 == k)).map (fun p => p.2)

/-- `{name: idx for idx, name in enumerate(names)}` as an association
list (later pairs override earlier ones via `lookupLast`). -/
def enumNames (names : List String) : List (String × Nat) :=
  names.enum.map (fun p => (p.2, p.1))

/-- The `for src_idx in sorted(needed_indices):` loop of `ensure_layers`.
Out-of-range indices are skipped; a source document whose `layer_names`
list is shorter than its `layers` list would raise `IndexError`
(modeled as an error value, unreachable for well-formed documents). -/
def ensureGo (source : Document) : List Int → Document → List (String × Nat) →
    List (Int × Nat) → Except String (Document × List (Int × Nat))
  | [], tgt, _, mapping => .ok (tgt, mapping)
  | i :: rest, tgt, existing, mapping =>
    if i < 0 ∨ i ≥ (source.layers.length : Int) then ensureGo source rest tgt existing mapping
    else
      match source.layer_names.get? i.toNat with
      | none => .error "IndexError"
      | some nm =>
        match lookupLast existing nm with
        | some j => ensureGo source rest tgt existing (mapping ++ [(i, j)])
        | none =>
          match source.layers.get? i.toNat with
          | none => .error "IndexError"
          | some lay =>
            let newIdx := tgt.layer_names.length
            ensureGo source rest
              { tgt with
                layer_names := tgt.layer_names ++ [nm],
                layers := tgt.layers ++ [lay] }
              (existing ++ [(nm, newIdx)]) (mapping ++ [(i, newIdx)])

/-- `ensure_layers(source, target, needed_indices)` of
copy_hrm_bindings.py (the needed indices are a Python set, so they are
deduplicated and processed in ascending order). -/
def ensure_layers (source target : Document) (needed_indices : List Int) :
    Except String (Document × List (Int × Nat)) :=
  ensureGo source (sortedDedup needed_indices) target (enumNames target.layer_names) []

/- ===== insert_hrm_layer.py ===== -/

/-- Python-dict lookup for the integer index mapping; a missing key is a
`KeyError`. -/
def dictGetI (m : List (Int × Int)) (k : Int) : Option Int :=
  (m.find? (fun p => p.1 == k)).map (fun p => p.2)

/-- `remap_layers_list(values, mapping)` of insert_hrm_layer.py: a
non-negative integer is replaced by `mapping[val]` (raising `KeyError`
when absent), anything else is kept unchanged. -/
def remap_layers_list (values : List Json) (mapping : List (Int × Int)) :
    Except String (List Json) :=
  match values with
  | [] => .ok []
  | v :: vs =>
    match v with
    | .jnum i =>
      if i ≥ 0 then
        match dictGetI mapping i with
        | some j => (remap_layers_list vs mapping).map (fun r => .jnum j :: r)
        | none => .error "KeyError"
      else (remap_layers_list vs mapping).map (fun r => v :: r)
    | _ => (remap_layers_list vs mapping).map (fun r => v :: r)

/-- Map a fallible function over a list, stopping at the first error. -/
def listMapExcept {α β : Type} (f : α → Except String β) : List α → Except String (List β)
  | [] => .ok []
  | a :: rest =>
    match f a with
    | .ok b => (listMapExcept f rest).map (fun bs => b :: bs)
    | .error e => .error e

/-- One macro parameter in the `&mo` remapping loop of
`insert_hrm_layer` (lines 77-80): an integer `"value"` is replaced by
`index_mapping[val]`, raising `KeyError` when the key is absent. -/
def remapMoParam (mapping : List (Int × Int)) (p : Json) : Except String Json :=
  match p with
  | .jobj fs =>
    match objGet fs "value" with
    | some (.jnum i) =>
      match dictGetI mapping i with
      | some j => .ok (.jobj (objSet fs "value" (.jnum j)))
      | none => .error "KeyError"
    | _ => .ok p
  | _ => .error "AttributeError"

/-- One macro binding in the `&mo` remapping loop of `insert_hrm_layer`
(lines 74-80): bindings whose `"value"` is `"&mo"` have each parameter
remapped; other bindings are untouched. -/
def remapMoBinding (mapping : List (Int × Int)) (b : Json) : Except String Json :=
  match b with
  | .jobj fs =>
    match objGet fs "value" with
    | some (.jstr s) =>
      if s == "&mo" then
        match objGet fs "params" with
        | some (.jarr ps) =>
          (listMapExcept (remapMoParam mapping) ps).map
            (fun ps2 => .jobj (objSet fs "params" (.jarr ps2)))
        | some _ => .error "TypeError"
        | none => .ok b
      else .ok b
    | _ => .ok b
  | _ => .error "AttributeError"

/-- The `for macro in data.get("macros", []):` remapping loop of
`insert_hrm_layer` (lines 74-80). -/
def insertRemapMacros (mapping : List (Int × Int)) (ms : List SDef) :
    Except String (List SDef) :=
  listMapExcept
    (fun m => (listMapExcept (remapMoBinding mapping) m.bindings).map
      (fun bs => { m with bindings := bs })) ms

/- ===== swap_base_layers.py ===== -/

/-- `is_trans(key)` of swap_base_layers.py. -/
def is_trans (key : KeyObj) : Bool :=
  match objGet key "value" with
  | some (.jstr s) => s == "&trans"
  | _ => false

/-- `ensure_params(key)`: `key.setdefault("params", [])`. -/
def ensure_params (key : KeyObj) : KeyObj :=
  if (objGet key "params").isSome then key else key ++ [("params", Json.jarr [])]

/-- The transparent sentinel key `{"value": "&trans", "params": []}`. -/
def transSentinel : KeyObj := [("value", Json.jstr "&trans"), ("params", Json.jarr [])]

/-- `swap_layers(data)` of swap_base_layers.py. -/
def swap_layers (data : Document) : Except String Document :=
  match data.layer_names.findIdx? (fun n => n == "Base"),
        data.layer_names.findIdx? (fun n => n == "BaseModded") with
  | some base_idx, some mod_idx =>
    match data.layers.get? base_idx, data.layers.get? mod_idx with
    | some base_layer, some mod_layer =>
      if base_layer.length ≠ mod_layer.length then
        .error "Base and BaseModded layers have different sizes."
      else
        let pairs := (base_layer.zip mod_layer).map (fun bm =>
          if is_trans bm.2 then (transSentinel, bm.1) else (bm.1, ensure_params bm.2))
        .ok { data with
              layers := ((data.layers.set base_idx (pairs.map (fun p => p.2))).set
                mod_idx (pairs.map (fun p => p.1))),
              layer_names :=
                ((data.layer_names.set base_idx
                    ((data.layer_names.get? mod_idx).getD "")).set
                  mod_idx ((data.layer_names.get? base_idx).getD "")) }
    | _, _ => .error "IndexError"
  | _, _ => .error "Could not find Base or BaseModded layer names."

/-- Structural equality of JSON trees up to the contents of string
leaves: objects keep exactly the same keys in the same order, arrays the
same length, and every non-string leaf is identical. -/
inductive SameShape : Json → Json → Prop
  | null : SameShape .null .null
  | jbool (b : Bool) : SameShape (.jbool b) (.jbool b)
  | jnum (n : Int) : SameShape (.jnum n) (.jnum n)
  | jstr (s t : String) : SameShape (.jstr s) (.jstr t)
  | jarr (xs ys : List Json) : List.Forall₂ SameShape xs ys → SameShape (.jarr xs) (.jarr ys)
  | jobj (fs gs : List (String × Json)) :
      fs.map Prod.fst = gs.map Prod.fst →
      List.Forall₂ SameShape (fs.map Prod.snd) (gs.map Prod.snd) →
      SameShape (.jobj fs) (.jobj gs)

/-- Concrete document in which the name "x" denotes both a hold-tap and a
macro definition. -/
def bothNamesDoc : Document :=
  { layer_names := [], layers := [],
    holdTaps := [⟨"x", []⟩], macros := [⟨"x", []⟩] }

/-- Concrete source document with a layer "Nav" at index 1 (witness data). -/
def srcNavDoc : Document :=
  { layer_names := ["A", "Nav"],
    layers := [[], [[("value", Json.jstr "&kp")]]],
    holdTaps := [], macros := [] }

/-- Concrete destination document with a single layer (witness data). -/
def tgtOneDoc : Document :=
  { layer_names := ["Base"], layers := [[]], holdTaps := [], macros := [] }

/-- Concrete document for the swap-layers scenario: every key of
`BaseModded` is the transparent sentinel. -/
def swapScenarioDoc : Document :=
  { layer_names := ["Base", "BaseModded"],
    layers := [[[("value", Json.jstr "&kp"), ("params", Json.jarr [Json.jnum 4])]],
               [[("value", Json.jstr "&trans")]]],
    holdTaps := [], macros := [] }

/-- Concrete document whose layer names do not include "Base". -/
def noBaseDoc : Document :=
  { layer_names := ["ZZZ"], layers := [[]], holdTaps := [], macros := [] }

/-- Concrete macro whose single `&mo` binding refers to layer index 99
(witness data for the KeyError behavior). -/
def moMacro99 : SDef :=
  ⟨"m", [Json.jobj [("value", Json.jstr "&mo"),
                    ("params", Json.jarr [Json.jobj [("value", Json.jnum 99)]])]]⟩

/-- A token is stable when `format_token` fixes it, it is non-empty and
underscore-free, and the role table either misses its lower-case form or
maps it to itself (proof device for the idempotence arguments). -/
def StableTok (w : PyStr) : Prop :=
  format_token w = w ∧ w ≠ [] ∧ '_' ∉ w ∧
  (ROLE_MAP (lowerL w) = none ∨ ROLE_MAP (lowerL w) = some w)

/- ===== Theorems ===== -/

theorem char_toNat_ofNat (n : Nat) (h : n.isValidChar) : (Char.ofNat n).toNat = n := by
  unfold Char.ofNat
  rw [dif_pos h]
  rfl

theorem char_toNat_inj {c d : Char} (h : c.toNat = d.toNat) : c = d :=
  Char.ext (UInt32.ext h)

theorem toNat_toUpper (c : Char) :
    c.toUpper.toNat = if c.toNat ≥ 97 ∧ c.toNat ≤ 122 then c.toNat - 32 else c.toNat := by
  unfold Char.toUpper
  by_cases h : c.toNat ≥ 97 ∧ c.toNat ≤ 122
  · rw [if_pos h, if_pos h, char_toNat_ofNat _ (by left; omega)]
  · rw [if_neg h, if_neg h]

theorem toNat_toLower (c : Char) :
    c.toLower.toNat = if c.toNat ≥ 65 ∧ c.toNat ≤ 90 then c.toNat + 32 else c.toNat := by
  unfold Char.toLower
  by_cases h : c.toNat ≥ 65 ∧ c.toNat ≤ 90
  · rw [if_pos h, if_pos h, char_toNat_ofNat _ (by left; omega)]
  · rw [if_neg h, if_neg h]

theorem toLower_toLower (c : Char) : c.toLower.toLower = c.toLower := by
  apply char_toNat_inj
  rw [toNat_toLower, toNat_toLower]
  split_ifs <;> omega

theorem toLower_toUpper (c : Char) : c.toUpper.toLower = c.toLower := by
  apply char_toNat_inj
  rw [toNat_toLower, toNat_toUpper, toNat_toLower]
  split_ifs <;> omega

theorem toUpper_toUpper (c : Char) : c.toUpper.toUpper = c.toUpper := by
  apply char_toNat_inj
  rw [toNat_toUpper, toNat_toUpper]
  split_ifs <;> omega

theorem toUpper_ne_underscore {c : Char} (h : c ≠ '_') : c.toUpper ≠ '_' := by
  intro he
  apply h
  apply char_toNat_inj
  have h2 := congrArg Char.toNat he
  rw [toNat_toUpper] at h2
  have h95 : ('_' : Char).toNat = 95 := by decide
  by_cases hc : c.toNat ≥ 97 ∧ c.toNat ≤ 122
  · rw [if_pos hc] at h2; omega
  · rw [if_neg hc] at h2; exact h2

theorem toLower_ne_underscore {c : Char} (h : c ≠ '_') : c.toLower ≠ '_' := by
  intro he
  apply h
  apply char_toNat_inj
  have h2 := congrArg Char.toNat he
  rw [toNat_toLower] at h2
  have h95 : ('_' : Char).toNat = 95 := by decide
  by_cases hc : c.toNat ≥ 65 ∧ c.toNat ≤ 90
  · rw [if_pos hc] at h2; omega
  · rw [if_neg hc] at h2; exact h2

/-- C6: `rename_hrm` maps `&HRM_left_pinky_v1B_TKZ` to `&BHRM_L_Pinky`
and `&HRM_right_index_hold_v2` to `&BHRM_R_Index_Hold`. -/
theorem C6_rename_hrm_concrete :
    rename_hrm "&HRM_left_pinky_v1B_TKZ".data = "&BHRM_L_Pinky".data ∧
    rename_hrm "&HRM_right_index_hold_v2".data = "&BHRM_R_Index_Hold".data :=
  ⟨by decide, by decide⟩

/-- C4 counterexample: `canonicalize_bhrm` is not idempotent.  On
`&BHRM_L_ttkzkz_index` the first pass turns token `ttkzkz` into `Tkz`
(removing `tkz` re-forms another `tkz`), and the second pass cleans
`Tkz` to the empty token and drops it, changing the result again. -/
theorem C4_canonicalize_not_idempotent :
    canonicalize_bhrm (canonicalize_bhrm "&BHRM_L_ttkzkz_index".data) ≠
      canonicalize_bhrm "&BHRM_L_ttkzkz_index".data := by decide

/-- C5 counterexample: `&HRM_left_index_ttkzkz` is rewritten by
`rename_hrm` to the `&BHRM_` name `&BHRM_L_Index_Tkz`, yet
`canonicalize_bhrm` changes that output further (to `&BHRM_L_Index`),
so the rename's output is not always canonical. -/
theorem C5_rename_not_canonical :
    "&BHRM_".data.isPrefixOf (rename_hrm "&HRM_left_index_ttkzkz".data) = true ∧
    canonicalize_bhrm (rename_hrm "&HRM_left_index_ttkzkz".data) ≠
      rename_hrm "&HRM_left_index_ttkzkz".data :=
  ⟨by decide, by decide⟩

/-- C1 counterexample: in a document where the name "x" is both a
hold-tap and a macro, seeding the collector with that name twice makes
it collect "x" as a hold-tap on the first pop and as a macro on the
second pop — it is not collected "as a hold-tap only, never as a
macro". -/
theorem C1_collected_as_macro_too :
    bothNamesDoc.holdTaps.map SDef.name = ["x"] ∧
    bothNamesDoc.macros.map SDef.name = ["x"] ∧
    (collect_support_objects bothNamesDoc ["x", "x"]).2.map SDef.name = ["x"] := by
  refine ⟨rfl, rfl, ?_⟩
  simp +decide [collect_support_objects, collectGo, enqueueStep, pyDictLookup,
    bothNamesDoc, List.find?]

/-- C3 counterexample: the index remapping of insert_hrm_layer.py is not
a silent no-op on out-of-range indices: a `layers` list holding 5 when
the mapping only covers index 0 raises `KeyError`, and an `&mo` macro
parameter 99 raises `KeyError` as well. -/
theorem C3_remap_keyerror :
    remap_layers_list [Json.jnum 5] [(0, 0)] = .error "KeyError" ∧
    insertRemapMacros [(0, 0)] [moMacro99] = .error "KeyError" :=
  ⟨rfl, rfl⟩

/-- C8 counterexample: when "Base" is absent, `swap_layers` aborts with
the fixed message "Could not find Base or BaseModded layer names.",
which does not enumerate the available layer names (the available name
"ZZZ" does not occur in it). -/
theorem C8_swap_message_not_enumerating :
    swap_layers noBaseDoc =
      .error "Could not find Base or BaseModded layer names." ∧
    hasSubB "ZZZ".data "Could not find Base or BaseModded layer names.".data = false :=
  ⟨rfl, by decide⟩
theorem upsert_names_subset {α : Type} (getName : α → Option String) (item : α) :
    ∀ (l : List α) (b : Option String),
      b ∈ (upsert_named getName l item).map getName → b = getName item ∨ b ∈ l.map getName := by
  intro l
  induction l with
  | nil =>
    intro b hb
    simp [upsert_named] at hb
    exact Or.inl hb
  | cons e rest ih =>
    intro b hb
    rw [upsert_named] at hb
    by_cases he : getName e = getName item
    · rw [if_pos he] at hb
      simp at hb
      rcases hb with hb | hb
      · exact Or.inl hb
      · exact Or.inr (by simp [hb])
    · rw [if_neg he] at hb
      simp at hb
      rcases hb with hb | hb
      · exact Or.inr (by simp [hb])
      · rcases ih b (by simpa using hb) with h | h
        · exact Or.inl h
        · exact Or.inr (by simp [h])

/-- C10: `upsert_named` replaces the first entry with a matching name in
place (leaving length and all other positions unchanged), appends when no
name matches, and preserves uniqueness of names. -/
theorem C10_upsert_named_spec {α : Type} (getName : α → Option String)
    (coll : List α) (item : α) :
    (∀ pre e post, coll = pre ++ e :: post →
      (∀ a ∈ pre, getName a ≠ getName item) → getName e = getName item →
      upsert_named getName coll item = pre ++ item :: post ∧
      (upsert_named getName coll item).length = coll.length) ∧
    ((∀ a ∈ coll, getName a ≠ getName item) →
      upsert_named getName coll item = coll ++ [item]) ∧
    ((coll.map getName).Nodup → ((upsert_named getName coll item).map getName).Nodup) := by
  refine ⟨?_, ?_, ?_⟩
  · intro pre
    induction pre generalizing coll with
    | nil =>
      intro e post hco hpre he
      subst hco
      simp only [List.nil_append]
      rw [upsert_named, if_pos he]
      simp
    | cons a pre' ih =>
      intro e post hco hpre he
      subst hco
      simp only [List.cons_append]
      rw [upsert_named, if_neg (hpre a (by simp))]
      have := ih (pre' ++ e :: post) e post rfl (fun x hx => hpre x (by simp [hx])) he
      simp only [List.cons_append, List.length_cons]
      constructor
      · rw [this.1]
      · rw [this.1]
        simp
  · induction coll with
    | nil => intro _; rfl
    | cons e rest ih =>
      intro hall
      rw [upsert_named, if_neg (hall e (by simp))]
      rw [ih (fun a ha => hall a (by simp [ha]))]
      simp
  · induction coll with
    | nil => intro _; simp [upsert_named]
    | cons e rest ih =>
      intro hnd
      simp only [List.map_cons, List.nodup_cons] at hnd
      rw [upsert_named]
      by_cases he : getName e = getName item
      · rw [if_pos he]
        simp only [List.map_cons, List.nodup_cons]
        exact ⟨by rw [← he]; exact hnd.1, hnd.2⟩
      · rw [if_neg he]
        simp only [List.map_cons, List.nodup_cons]
        refine ⟨?_, ih hnd.2⟩
        intro hmem
        rcases upsert_names_subset getName item rest (getName e) hmem with h | h
        · exact he h
        · exact hnd.1 h

/-- Witness for C10 at a concrete collection. -/
theorem C10_upsert_named_spec_witness :
    upsert_named (fun x => x) [some "a", some "b"] (some "b") =
        [some "a"] ++ some "b" :: [] ∧
    ((upsert_named (fun x => x) [some "a", some "b"] (some "b")).map (fun x => x)).Nodup := by
  constructor
  · exact ((C10_upsert_named_spec (fun x => x) [some "a", some "b"] (some "b")).1
      [some "a"] (some "b") [] rfl (by decide) rfl).1
  · exact (C10_upsert_named_spec (fun x => x) [some "a", some "b"] (some "b")).2.2 (by decide)
theorem lookupLast_mem {m : List (String × Nat)} {k : String} {j : Nat}
    (h : lookupLast m k = some j) : (k, j) ∈ m := by
  unfold lookupLast at h
  cases hf : m.reverse.find? (fun p => p.1 == k) with
  | none => rw [hf] at h; simp at h
  | some p =>
    rw [hf] at h
    simp at h
    have hmem := List.mem_of_find?_eq_some hf
    have hp := List.find?_some hf
    simp at hp
    rw [List.mem_reverse] at hmem
    have : p = (k, j) := by
      cases p
      simp_all
    rw [← this]
    exact hmem

theorem enumNames_lt {names : List String} {p : String × Nat}
    (h : p ∈ enumNames names) : p.2 < names.length := by
  unfold enumNames at h
  simp at h
  obtain ⟨i, s, hmem, hp⟩ := h
  have h2 := List.mem_enum hmem
  subst hp
  exact h2.1

theorem ensureGo_spec (source : Document) :
    ∀ (idxs : List Int) (tgt : Document) (existing : List (String × Nat))
      (mapping : List (Int × Nat)) (tgt2 : Document) (mp2 : List (Int × Nat)),
      (∀ p ∈ existing, p.2 < tgt.layer_names.length) →
      (∀ p ∈ mapping, p.2 < tgt.layer_names.length) →
      ensureGo source idxs tgt existing mapping = .ok (tgt2, mp2) →
      (∃ extN extL, tgt2.layer_names = tgt.layer_names ++ extN ∧
        tgt2.layers = tgt.layers ++ extL ∧ extN.length = extL.length) ∧
      (∀ p ∈ mp2, p.2 < tgt2.layer_names.length) := by
  intro idxs
  induction idxs with
  | nil =>
    intro tgt existing mapping tgt2 mp2 hex hmap h
    rw [ensureGo] at h
    simp at h
    obtain ⟨h1, h2⟩ := h
    subst h1; subst h2
    exact ⟨⟨[], [], by simp, by simp, rfl⟩, hmap⟩
  | cons i rest ih =>
    intro tgt existing mapping tgt2 mp2 hex hmap h
    rw [ensureGo] at h
    split at h
    · exact ih tgt existing mapping tgt2 mp2 hex hmap h
    · split at h
      · exact Except.noConfusion h
      · rename_i nm hn
        split at h
        · rename_i j hl
          have hj : j < tgt.layer_names.length := hex (nm, j) (lookupLast_mem hl)
          refine ih tgt existing (mapping ++ [(i, j)]) tgt2 mp2 hex ?_ h
          intro p hp
          rcases List.mem_append.mp hp with hp | hp
          · exact hmap p hp
          · simp at hp
            rw [hp]
            exact hj
        · rename_i hl
          split at h
          · exact Except.noConfusion h
          · rename_i lay hlay
            have hres := ih _ _ _ tgt2 mp2 ?_ ?_ h
            · obtain ⟨⟨extN, extL, he1, he2, he3⟩, hm2⟩ := hres
              refine ⟨⟨nm :: extN, lay :: extL, ?_, ?_, by simp [he3]⟩, hm2⟩
              · rw [he1]; simp
              · rw [he2]; simp
            · intro p hp
              rcases List.mem_append.mp hp with hp | hp
              · have := hex p hp
                simp only [List.length_append, List.length_cons, List.length_nil]
                omega
              · simp at hp
                rw [hp]
                simp
            · intro p hp
              rcases List.mem_append.mp hp with hp | hp
              · have := hmap p hp
                simp only [List.length_append, List.length_cons, List.length_nil]
                omega
              · simp at hp
                rw [hp]
                simp

/-- C2: `ensure_layers` only appends to the destination layer names and
layers (by the same amount), and every value in the returned mapping is a
valid index into the extended name list; when the destination name and
layer lists had equal length they still do, and mapping values are then
also valid indices into the extended layer list. -/
theorem C2_ensure_layers_append_only (source target : Document) (needed : List Int)
    (tgt2 : Document) (mp : List (Int × Nat))
    (h : ensure_layers source target needed = .ok (tgt2, mp)) :
    (∃ extN extL, tgt2.layer_names = target.layer_names ++ extN ∧
      tgt2.layers = target.layers ++ extL ∧ extN.length = extL.length) ∧
    (∀ p ∈ mp, p.2 < tgt2.layer_names.length) ∧
    (target.layer_names.length = target.layers.length →
      tgt2.layer_names.length = tgt2.layers.length ∧
      ∀ p ∈ mp, p.2 < tgt2.layers.length) := by
  have hspec := ensureGo_spec source (sortedDedup needed) target
    (enumNames target.layer_names) [] tgt2 mp
    (fun p hp => enumNames_lt hp) (by simp) h
  obtain ⟨⟨extN, extL, he1, he2, he3⟩, hm⟩ := hspec
  refine ⟨⟨extN, extL, he1, he2, he3⟩, hm, ?_⟩
  intro heq
  have hlen : tgt2.layer_names.length = tgt2.layers.length := by
    rw [he1, he2]
    simp only [List.length_append]
    omega
  exact ⟨hlen, fun p hp => by rw [← hlen]; exact hm p hp⟩

/-- Witness for C2 at a concrete source, destination and index set. -/
theorem C2_ensure_layers_append_only_witness :
    (∃ extN extL,
      (Document.mk ["Base", "Nav"] [[], [[("value", Json.jstr "&kp")]]] [] []).layer_names
          = tgtOneDoc.layer_names ++ extN ∧
      (Document.mk ["Base", "Nav"] [[], [[("value", Json.jstr "&kp")]]] [] []).layers
          = tgtOneDoc.layers ++ extL ∧ extN.length = extL.length) ∧
    (∀ p ∈ [((1 : Int), (1 : Nat))],
      p.2 < (Document.mk ["Base", "Nav"] [[], [[("value", Json.jstr "&kp")]]] [] []).layer_names.length) ∧
    (tgtOneDoc.layer_names.length = tgtOneDoc.layers.length →
      (Document.mk ["Base", "Nav"] [[], [[("value", Json.jstr "&kp")]]] [] []).layer_names.length
        = (Document.mk ["Base", "Nav"] [[], [[("value", Json.jstr "&kp")]]] [] []).layers.length ∧
      ∀ p ∈ [((1 : Int), (1 : Nat))],
        p.2 < (Document.mk ["Base", "Nav"] [[], [[("value", Json.jstr "&kp")]]] [] []).layers.length) :=
  C2_ensure_layers_append_only srcNavDoc tgtOneDoc [1]
    (Document.mk ["Base", "Nav"] [[], [[("value", Json.jstr "&kp")]]] [] [])
    [((1 : Int), (1 : Nat))] rfl
theorem insSorted_mem {j x : Int} : ∀ {l : List Int}, j ∈ insSorted x l → j = x ∨ j ∈ l := by
  intro l
  induction l with
  | nil => intro h; simp [insSorted] at h; exact Or.inl h
  | cons y ys ih =>
    intro h
    rw [insSorted] at h
    split_ifs at h with h1 h2
    · simp at h
      rcases h with h | h | h
      · exact Or.inl h
      · exact Or.inr (by simp [h])
      · exact Or.inr (by simp [h])
    · exact Or.inr h
    · simp at h
      rcases h with h | h
      · exact Or.inr (by simp [h])
      · rcases ih h with h | h
        · exact Or.inl h
        · exact Or.inr (by simp [h])

theorem sortedDedup_mem {j : Int} : ∀ {l : List Int}, j ∈ sortedDedup l → j ∈ l := by
  intro l
  induction l with
  | nil => intro h; simp [sortedDedup] at h
  | cons x xs ih =>
    intro h
    rw [sortedDedup] at h
    rcases insSorted_mem h with h | h
    · simp [h]
    · simp [ih h]

theorem ensureGo_all_oor (source : Document) :
    ∀ (idxs : List Int) (tgt : Document) (existing : List (String × Nat))
      (mapping : List (Int × Nat)),
      (∀ i ∈ idxs, i < 0 ∨ i ≥ (source.layers.length : Int)) →
      ensureGo source idxs tgt existing mapping = .ok (tgt, mapping) := by
  intro idxs
  induction idxs with
  | nil => intro tgt existing mapping _; rfl
  | cons i rest ih =>
    intro tgt existing mapping hall
    rw [ensureGo, if_pos (hall i (by simp))]
    exact ih tgt existing mapping (fun j hj => hall j (by simp [hj]))

/-- C3 (amended): `ensure_layers` silently skips out-of-range layer
indices (a needed set consisting only of out-of-range indices is a
complete no-op and returns an empty mapping), while the remapping done by
insert_hrm_layer.py is *not* a silent skip: `remap_layers_list` passes a
negative integer through unchanged but raises `KeyError` on a
non-negative index absent from the mapping, and the `&mo` macro
parameter loop raises `KeyError` on any integer parameter absent from the
mapping. -/
theorem C3_out_of_range_behavior :
    (∀ (source target : Document) (needed : List Int),
      (∀ i ∈ needed, i < 0 ∨ i ≥ (source.layers.length : Int)) →
      ensure_layers source target needed = .ok (target, [])) ∧
    (∀ (mapping : List (Int × Int)) (i : Int), i < 0 →
      remap_layers_list [Json.jnum i] mapping = .ok [Json.jnum i]) ∧
    (∀ (mapping : List (Int × Int)) (i : Int), i ≥ 0 → dictGetI mapping i = none →
      remap_layers_list [Json.jnum i] mapping = .error "KeyError") ∧
    (∀ (mapping : List (Int × Int)) (fs : List (String × Json)) (i : Int),
      objGet fs "value" = some (Json.jnum i) → dictGetI mapping i = none →
      remapMoParam mapping (Json.jobj fs) = .error "KeyError") := by
  refine ⟨?_, ?_, ?_, ?_⟩
  · intro source target needed hall
    unfold ensure_layers
    exact ensureGo_all_oor source _ _ _ _ (fun i hi => hall i (sortedDedup_mem hi))
  · intro mapping i hi
    rw [remap_layers_list, if_neg (by omega)]
    rfl
  · intro mapping i hi hnone
    rw [remap_layers_list, if_pos hi, hnone]
  · intro mapping fs i hval hnone
    rw [remapMoParam, hval]
    dsimp only
    rw [hnone]

/-- Witness for C3 at concrete inputs. -/
theorem C3_out_of_range_behavior_witness :
    ensure_layers srcNavDoc tgtOneDoc [5, -1] = .ok (tgtOneDoc, []) ∧
    remap_layers_list [Json.jnum (-3)] [(0, 0)] = .ok [Json.jnum (-3)] ∧
    remap_layers_list [Json.jnum 0] [] = .error "KeyError" ∧
    remapMoParam [] (Json.jobj [("value", Json.jnum 7)]) = .error "KeyError" :=
  ⟨C3_out_of_range_behavior.1 srcNavDoc tgtOneDoc [5, -1] (by decide),
   C3_out_of_range_behavior.2.1 [(0, 0)] (-3) (by decide),
   C3_out_of_range_behavior.2.2.1 [] 0 (by decide) rfl,
   C3_out_of_range_behavior.2.2.2 [] [("value", Json.jnum 7)] 7 rfl rfl⟩
theorem findIdx?_found {α : Type} (p : α → Bool) :
    ∀ (l : List α) (s i : Nat), List.findIdx? p l s = some i →
      s ≤ i ∧ ∃ a, l.get? (i - s) = some a ∧ p a = true := by
  intro l
  induction l with
  | nil => intro s i h; simp [List.findIdx?] at h
  | cons x xs ih =>
    intro s i h
    rw [List.findIdx?] at h
    by_cases hp : p x
    · rw [if_pos hp] at h
      simp at h
      subst h
      exact ⟨le_refl _, x, by simp, hp⟩
    · rw [if_neg hp] at h
      obtain ⟨hs, a, hg, hpa⟩ := ih (s + 1) i h
      refine ⟨by omega, a, ?_, hpa⟩
      have he : i - s = (i - (s + 1)) + 1 := by omega
      rw [he]
      simpa using hg

theorem findIdx?_get {α : Type} {p : α → Bool} {l : List α} {i : Nat}
    (h : List.findIdx? p l = some i) : ∃ a, l.get? i = some a ∧ p a = true := by
  have h2 := findIdx?_found p l 0 i h
  simpa using h2.2

/-- C7: on a document whose `BaseModded` layer is entirely the
transparent sentinel, `swap_layers` puts a copy of the original `Base`
layer in the slot that previously held `Base` (now named `BaseModded`),
and the slot now named `Base` consists entirely of sentinel keys. -/
theorem C7_swap_layers_all_trans (d : Document) (bi mi : Nat)
    (baseL modL : List KeyObj)
    (hb : d.layer_names.findIdx? (fun n => n == "Base") = some bi)
    (hm : d.layer_names.findIdx? (fun n => n == "BaseModded") = some mi)
    (hbl : d.layers.get? bi = some baseL)
    (hml : d.layers.get? mi = some modL)
    (hlen : baseL.length = modL.length)
    (htr : ∀ k ∈ modL, is_trans k = true) :
    ∃ d2, swap_layers d = .ok d2 ∧
      d2.layers.get? bi = some baseL ∧
      d2.layer_names.get? bi = some "BaseModded" ∧
      (∀ k ∈ (d2.layers.get? mi).getD [], k = transSentinel) ∧
      d2.layer_names.get? mi = some "Base" := by
  obtain ⟨nb, hnb, hnbp⟩ := findIdx?_get hb
  obtain ⟨nm2, hnm, hnmp⟩ := findIdx?_get hm
  simp at hnbp hnmp
  subst hnbp
  subst hnmp
  have hne : bi ≠ mi := by
    intro he
    rw [he, hnm] at hnb
    exact absurd (Option.some.inj hnb) (by decide)
  have hbi_lt : bi < d.layers.length := (List.get?_eq_some.mp hbl).1
  have hmi_lt : mi < d.layers.length := (List.get?_eq_some.mp hml).1
  have hbn_lt : bi < d.layer_names.length := (List.get?_eq_some.mp hnb).1
  have hmn_lt : mi < d.layer_names.length := (List.get?_eq_some.mp hnm).1
  have hgetm : (d.layer_names.get? mi).getD "" = "BaseModded" := by rw [hnm]; rfl
  have hgetb : (d.layer_names.get? bi).getD "" = "Base" := by rw [hnb]; rfl
  have hpairs2 : ((baseL.zip modL).map (fun bm =>
      if is_trans bm.2 then (transSentinel, bm.1) else (bm.1, ensure_params bm.2))).map
        (fun p => p.2) = baseL := by
    rw [List.map_map]
    have hcong : ∀ bm ∈ baseL.zip modL,
        ((fun p => p.2) ∘ (fun bm =>
          if is_trans bm.2 then (transSentinel, bm.1) else (bm.1, ensure_params bm.2))) bm
          = Prod.fst bm := by
      intro bm hbm
      obtain ⟨b1, b2⟩ := bm
      have h2 := (List.of_mem_zip hbm).2
      simp [Function.comp, htr b2 h2]
    rw [List.map_eq_map_iff.mpr hcong]
    exact List.map_fst_zip baseL modL (by omega)
  have hpairs1 : ∀ k ∈ ((baseL.zip modL).map (fun bm =>
      if is_trans bm.2 then (transSentinel, bm.1) else (bm.1, ensure_params bm.2))).map
        (fun p => p.1), k = transSentinel := by
    intro k hk
    rw [List.map_map, List.mem_map] at hk
    obtain ⟨bm, hbm, hkeq⟩ := hk
    obtain ⟨b1, b2⟩ := bm
    have h2 := (List.of_mem_zip hbm).2
    simp [Function.comp, htr b2 h2] at hkeq
    exact hkeq.symm
  refine ⟨{ d with
      layers := ((d.layers.set bi (((baseL.zip modL).map (fun bm =>
        if is_trans bm.2 then (transSentinel, bm.1) else (bm.1, ensure_params bm.2))).map
          (fun p => p.2))).set mi (((baseL.zip modL).map (fun bm =>
        if is_trans bm.2 then (transSentinel, bm.1) else (bm.1, ensure_params bm.2))).map
          (fun p => p.1))),
      layer_names := ((d.layer_names.set bi "BaseModded").set mi "Base") }, ?_, ?_, ?_, ?_, ?_⟩
  · rw [swap_layers, hb, hm]
    dsimp only
    rw [hbl, hml]
    dsimp only
    rw [if_neg (by omega), hgetm, hgetb]
  · dsimp only
    rw [List.get?_set_ne _ _ (Ne.symm hne), List.get?_set_eq_of_lt _ hbi_lt, hpairs2]
  · dsimp only
    rw [List.get?_set_ne _ _ (Ne.symm hne), List.get?_set_eq_of_lt _ hbn_lt]
  · dsimp only
    rw [List.get?_set_eq_of_lt _ (by simpa using hmi_lt)]
    simpa using hpairs1
  · dsimp only
    rw [List.get?_set_eq_of_lt _ (by simpa using hmn_lt)]

/-- Witness for C7 at a concrete two-layer document. -/
theorem C7_swap_layers_all_trans_witness :
    ∃ d2, swap_layers swapScenarioDoc = .ok d2 ∧
      d2.layers.get? 0 = some [[("value", Json.jstr "&kp"), ("params", Json.jarr [Json.jnum 4])]] ∧
      d2.layer_names.get? 0 = some "BaseModded" ∧
      (∀ k ∈ (d2.layers.get? 1).getD [], k = transSentinel) ∧
      d2.layer_names.get? 1 = some "Base" :=
  C7_swap_layers_all_trans swapScenarioDoc 0 1
    [[("value", Json.jstr "&kp"), ("params", Json.jarr [Json.jnum 4])]]
    [[("value", Json.jstr "&trans")]]
    rfl rfl rfl rfl rfl
    (by intro k hk
        simp only [List.mem_singleton] at hk
        subst hk
        rfl)

theorem hasSubB_of_isPrefix {p s : PyStr} (h : p.isPrefixOf s = true) :
    hasSubB p s = true := by
  cases s with
  | nil =>
    have hp : p = [] := by
      cases p with
      | nil => rfl
      | cons c r => simp [List.isPrefixOf] at h
    subst hp
    rfl
  | cons c r =>
    rw [hasSubB, h]
    simp

theorem hasSubB_of_decomp (p : PyStr) : ∀ (a b : PyStr), hasSubB p (a ++ p ++ b) = true := by
  intro a
  induction a with
  | nil =>
    intro b
    simp only [List.nil_append]
    exact hasSubB_of_isPrefix ( List.isPrefixOf_iff_prefix.mpr ( List.prefix_append _ _))
  | cons c a' ih =>
    intro b
    rw [List.cons_append, List.cons_append, hasSubB, ih b]
    simp

theorem findIdx?_none_of_not_mem {l : List String} {x : String} (h : x ∉ l) :
    l.findIdx? (fun n => n == x) = none := by
  rw [List.findIdx?_eq_none_iff]
  intro y hy
  simp
  intro he
  subst he
  exact absurd hy h

theorem joinComma_decomp {n : String} : ∀ {l : List String}, n ∈ l →
    ∃ a b, joinComma l = a ++ n.data ++ b := by
  intro l
  induction l with
  | nil => intro h; simp at h
  | cons s rest ih =>
    intro h
    rcases List.mem_cons.mp h with he | hmem
    · subst he
      cases rest with
      | nil => exact ⟨sQuote.data, sQuote.data, rfl⟩
      | cons r rs =>
        refine ⟨sQuote.data, sQuote.data ++ ", ".data ++ joinComma (r :: rs), ?_⟩
        rw [joinComma]
        unfold quoteName
        simp [List.append_assoc]
    · cases rest with
      | nil => simp at hmem
      | cons r rs =>
        obtain ⟨a, b, hab⟩ := ih hmem
        refine ⟨quoteName s ++ ", ".data ++ a, b, ?_⟩
        rw [joinComma, hab]
        simp [List.append_assoc]

/-- C8 (amended): `find_layer_index` aborts on a missing layer name with
a message that contains every available layer name (and the sought
name), while `swap_layers` also aborts fatally when `Base` or
`BaseModded` is missing but with a fixed message that does not enumerate
the available names. -/
theorem C8_missing_layer_errors :
    (∀ (layout : Document) (layer_name : String),
      layer_name ∉ layout.layer_names →
      find_layer_index layout layer_name =
        .error ("Layer " ++ sQuote ++ layer_name ++ sQuote ++ " not found. Available: "
          ++ pyReprList layout.layer_names) ∧
      ∀ n ∈ layout.layer_names,
        hasSubB n.data ("Layer " ++ sQuote ++ layer_name ++ sQuote ++ " not found. Available: "
          ++ pyReprList layout.layer_names).data = true) ∧
    (∀ d : Document,
      ("Base" ∉ d.layer_names ∨ "BaseModded" ∉ d.layer_names) →
      swap_layers d = .error "Could not find Base or BaseModded layer names.") := by
  constructor
  · intro layout layer_name habs
    constructor
    · rw [find_layer_index, findIdx?_none_of_not_mem habs]
    · intro n hn
      obtain ⟨a, b, hab⟩ := joinComma_decomp hn
      have hmsg : ("Layer " ++ sQuote ++ layer_name ++ sQuote ++ " not found. Available: "
          ++ pyReprList layout.layer_names).data
          = (("Layer " ++ sQuote ++ layer_name ++ sQuote ++ " not found. Available: ").data
              ++ "[".data ++ a) ++ n.data ++ (b ++ "]".data) := by
        show (("Layer " ++ sQuote ++ layer_name ++ sQuote ++ " not found. Available: ").data
            ++ (pyReprList layout.layer_names).data) = _
        unfold pyReprList
        rw [hab]
        simp [List.append_assoc]
      rw [hmsg]
      exact hasSubB_of_decomp n.data _ _
  · intro d hd
    rcases hd with hd | hd
    · rw [swap_layers, findIdx?_none_of_not_mem hd]
    · rw [swap_layers, findIdx?_none_of_not_mem hd]
      cases d.layer_names.findIdx? (fun n => n == "Base") <;> rfl

/-- Witness for C8 at a concrete document and missing name. -/
theorem C8_missing_layer_errors_witness :
    (find_layer_index noBaseDoc "Qmiss" =
      .error ("Layer " ++ sQuote ++ "Qmiss" ++ sQuote ++ " not found. Available: "
        ++ pyReprList noBaseDoc.layer_names) ∧
    ∀ n ∈ noBaseDoc.layer_names,
      hasSubB n.data ("Layer " ++ sQuote ++ "Qmiss" ++ sQuote ++ " not found. Available: "
        ++ pyReprList noBaseDoc.layer_names).data = true) ∧
    swap_layers noBaseDoc = .error "Could not find Base or BaseModded layer names." :=
  ⟨C8_missing_layer_errors.1 noBaseDoc "Qmiss" (by decide),
   C8_missing_layer_errors.2 noBaseDoc (Or.inl (by decide))⟩
theorem pyDictLookup_name {items : List SDef} {n : String} {d : SDef}
    (h : pyDictLookup items n = some d) : d.name = n := by
  unfold pyDictLookup at h
  have h2 := List.find?_some h
  simpa using h2

theorem collectGo_nodup (htL mcL : List SDef)
    (queue seenH seenM : List String) (accH accM : List SDef) :
    (accH.map SDef.name).Nodup → (∀ x ∈ accH.map SDef.name, x ∈ seenH) →
    (accM.map SDef.name).Nodup → (∀ x ∈ accM.map SDef.name, x ∈ seenM) →
    ((collectGo htL mcL queue seenH seenM accH accM).1.map SDef.name).Nodup ∧
    ((collectGo htL mcL queue seenH seenM accH accM).2.map SDef.name).Nodup := by
  induction queue, seenH, seenM, accH, accM using collectGo.induct htL mcL with
  | case1 seenH seenM accH accM =>
    intro h1 h2 h3 h4
    rw [collectGo]
    exact ⟨h1, h3⟩
  | case2 seenH seenM accH accM n rest d hh hc seenH2 q2 ih =>
    intro h1 h2 h3 h4
    have hdn : d.name = n := pyDictLookup_name hh
    have hnse : n ∉ seenH := by
      intro hn
      have h3' : seenH.elem n = true := List.elem_iff.mpr hn
      simp only [List.contains] at hc
      rw [hc] at h3'
      exact Bool.noConfusion h3'
    rw [collectGo]
    split
    · rename_i d' hh' hc'
      rw [hh] at hh'
      injection hh' with hd'
      subst hd'
      apply ih
      · rw [List.map_append]
        simp only [List.map_cons, List.map_nil]
        rw [List.nodup_append]
        refine ⟨h1, List.nodup_singleton _, ?_⟩
        intro x hx
        simp only [List.mem_singleton]
        intro he
        subst he
        rw [hdn] at hx
        exact hnse (h2 n hx)
      · intro x hx
        rw [List.map_append] at hx
        rcases List.mem_append.mp hx with hx | hx
        · exact List.mem_cons_of_mem _ (h2 x hx)
        · simp only [List.map_cons, List.map_nil, List.mem_singleton] at hx
          subst hx
          rw [hdn]
          exact List.mem_cons_self _ _
      · exact h3
      · exact h4
    · rename_i hfb
      exact (hfb d hh hc).elim
  | case3 seenH seenM accH accM n rest d hm hc2 seenM2 q2 hx ih =>
    intro h1 h2 h3 h4
    have hdn : d.name = n := pyDictLookup_name hm
    have hnse : n ∉ seenM := by
      intro hn
      have h3' : seenM.elem n = true := List.elem_iff.mpr hn
      simp only [List.contains] at hc2
      rw [hc2] at h3'
      exact Bool.noConfusion h3'
    rw [collectGo]
    split
    · rename_i d' hh' hc'
      exact (hx d' hh' hc').elim
    · split
      · rename_i d'' hm' hc''
        rw [hm] at hm'
        injection hm' with hd''
        subst hd''
        apply ih
        · exact h1
        · exact h2
        · rw [List.map_append]
          simp only [List.map_cons, List.map_nil]
          rw [List.nodup_append]
          refine ⟨h3, List.nodup_singleton _, ?_⟩
          intro x hxm
          simp only [List.mem_singleton]
          intro he
          subst he
          rw [hdn] at hxm
          exact hnse (h4 n hxm)
        · intro x hxm
          rw [List.map_append] at hxm
          rcases List.mem_append.mp hxm with hxm | hxm
          · exact List.mem_cons_of_mem _ (h4 x hxm)
          · simp only [List.map_cons, List.map_nil, List.mem_singleton] at hxm
            subst hxm
            rw [hdn]
            exact List.mem_cons_self _ _
      · rename_i hfb
        exact (hfb d hm hc2).elim
  | case4 seenH seenM accH accM n rest hx1 hx2 ih =>
    intro h1 h2 h3 h4
    rw [collectGo]
    split
    · rename_i d' hh' hc'
      exact (hx1 d' hh' hc').elim
    · split
      · rename_i d'' hm' hc''
        exact (hx2 d'' hm' hc'').elim
      · exact ih h1 h2 h3 h4

/-- C1 (amended): `collect_support_objects` terminates (it is a total
function of the model; the loop measure is the number of not-yet-seen
definition names) and returns each hold-tap definition at most once and
each macro definition at most once.  A name present in both the hold-tap
and the macro collection is collected as a hold-tap when first dequeued,
but it can additionally be collected once as a macro if it is dequeued
again afterwards. -/
theorem C1_collect_support_objects_no_duplicates (source : Document) (names : List String) :
    ((collect_support_objects source names).1.map SDef.name).Nodup ∧
    ((collect_support_objects source names).2.map SDef.name).Nodup := by
  unfold collect_support_objects
  exact collectGo_nodup source.holdTaps source.macros names.reverse [] [] [] []
    (by simp) (by simp) (by simp) (by simp)
theorem transform_strings_arr (items : List Json) :
    transform_strings (.jarr items) = .jarr (items.map transform_strings) := by
  rw [transform_strings]
  simp

theorem transform_strings_obj (fields : List (String × Json)) :
    transform_strings (.jobj fields) =
      .jobj (fields.map (fun p => (p.1, transform_strings p.2))) := by
  rw [transform_strings]
  congr 1
  rw [← List.attach_map_coe fields (fun p => (p.1, transform_strings p.2))]

/-- C9: `transform_strings` preserves the shape of its input tree —
objects keep exactly the same keys in the same order, arrays keep their
length, non-string leaves are unchanged, and only string leaves may
differ. -/
theorem C9_transform_strings_same_shape : ∀ j : Json, SameShape j (transform_strings j)
  | .null => by
    rw [transform_strings]
    all_goals try (intro _ h; exact Json.noConfusion h)
    exact .null
  | .jbool b => by
    rw [transform_strings]
    all_goals try (intro _ h; exact Json.noConfusion h)
    exact .jbool b
  | .jnum n => by
    rw [transform_strings]
    all_goals try (intro _ h; exact Json.noConfusion h)
    exact .jnum n
  | .jstr s => by rw [transform_strings]; exact .jstr _ _
  | .jarr items => by
    rw [transform_strings_arr]
    refine SameShape.jarr _ _ ?_
    rw [List.forall₂_map_right_iff]
    rw [List.forall₂_same]
    intro x hx
    exact C9_transform_strings_same_shape x
  | .jobj fields => by
    rw [transform_strings_obj]
    refine SameShape.jobj _ _ ?_ ?_
    · rw [List.map_map]
      rfl
    · rw [List.map_map]
      show List.Forall₂ SameShape (fields.map Prod.snd)
        (fields.map (fun p => transform_strings p.2))
      rw [List.forall₂_map_right_iff, List.forall₂_map_left_iff]
      rw [List.forall₂_same]
      intro p hp
      exact C9_transform_strings_same_shape p.2
termination_by j => sizeOf j
decreasing_by
  · have h1 := List.sizeOf_lt_of_mem hx
    simp
    omega
  · have h1 := List.sizeOf_lt_of_mem hp
    obtain ⟨a, b⟩ := p
    simp at h1 ⊢
    omega

theorem mapIdOn {f : Char → Char} : ∀ {l : PyStr}, (∀ c ∈ l, f c = c) → l.map f = l := by
  intro l
  induction l with
  | nil => intro _; rfl
  | cons c r ih =>
    intro h
    rw [List.map_cons, h c (by simp), ih (fun x hx => h x (by simp [hx]))]

theorem hasSubB_iff {p : PyStr} : ∀ {s : PyStr},
    hasSubB p s = true ↔ ∃ a b, s = a ++ p ++ b := by
  intro s
  induction s with
  | nil =>
    rw [hasSubB]
    constructor
    · intro h
      have hp : p = [] := by simpa using h
      exact ⟨[], [], by simp [hp]⟩
    · rintro ⟨a, b, hab⟩
      have hl := congrArg List.length hab
      simp only [List.length_nil, List.length_append] at hl
      have hp : p.length = 0 := by omega
      simp [List.length_eq_zero.mp hp]
  | cons c r ih =>
    rw [hasSubB]
    constructor
    · intro h
      rcases Bool.or_eq_true_iff.mp h with h | h
      · rw [ List.isPrefixOf_iff_prefix] at h
        obtain ⟨b, hb⟩ := h
        exact ⟨[], b, by simp [hb.symm]⟩
      · obtain ⟨a, b, hab⟩ := ih.mp h
        exact ⟨c :: a, b, by simp [hab]⟩
    · rintro ⟨a, b, hab⟩
      cases a with
      | nil =>
        simp only [List.nil_append] at hab
        have : p.isPrefixOf (c :: r) = true := by
          rw [ List.isPrefixOf_iff_prefix, hab]
          exact List.prefix_append _ _
        rw [this]
        simp
      | cons a0 a' =>
        simp only [List.cons_append] at hab
        have hr : r = a' ++ p ++ b := by
          injection hab with _ h2
        rw [ih.mpr ⟨a', b, hr⟩]
        simp

theorem hasSubB_false_ne_nil {p s : PyStr} (h : hasSubB p s = false) : p ≠ [] := by
  intro he
  subst he
  rw [hasSubB_iff.mpr ⟨[], s, by simp⟩] at h
  exact Bool.noConfusion h

theorem hasSubB_false_of_infix {p a m b : PyStr}
    (h : hasSubB p (a ++ m ++ b) = false) : hasSubB p m = false := by
  cases hm : hasSubB p m with
  | false => rfl
  | true =>
    obtain ⟨x, y, hxy⟩ := hasSubB_iff.mp hm
    have : hasSubB p (a ++ m ++ b) = true :=
      hasSubB_iff.mpr ⟨a ++ x, y ++ b, by rw [hxy]; simp [List.append_assoc]⟩
    rw [this] at h
    exact Bool.noConfusion h

theorem hasSubB_false_of_append_right {p m b : PyStr}
    (h : hasSubB p (m ++ b) = false) : hasSubB p m = false := by
  have h2 : hasSubB p ([] ++ m ++ b) = false := by simpa using h
  exact hasSubB_false_of_infix h2

theorem hasSubB_false_of_append_left (a : PyStr) {p m : PyStr}
    (h : hasSubB p (a ++ m) = false) : hasSubB p m = false := by
  have h2 : hasSubB p (a ++ m ++ []) = false := by simpa using h
  exact hasSubB_false_of_infix h2

theorem removeTkz_eq_self : ∀ {s : PyStr}, hasSubB "tkz".data s = false → removeTkz s = s := by
  intro s
  induction s using removeTkz.induct with
  | case1 rest ih =>
    intro h
    exfalso
    have hp : hasSubB "tkz".data ('t' :: 'k' :: 'z' :: rest) = true :=
      hasSubB_iff.mpr ⟨[], rest, rfl⟩
    rw [hp] at h
    exact Bool.noConfusion h
  | case2 c rest hne ih =>
    intro h
    have ht : hasSubB "tkz".data rest = false := by
      have h2 : hasSubB "tkz".data ([c] ++ rest) = false := by simpa using h
      exact hasSubB_false_of_append_left [c] h2
    rw [removeTkz.eq_def]
    split
    · rename_i rest2 heq
      exfalso
      injection heq with e1 e2
      subst e1
      exact hne rest2 rfl e2
    · rename_i c' rest' hne2 heq
      injection heq with h1 h2
      subst h1
      subst h2
      rw [ih ht]
    · rename_i heq
      exact absurd heq (by simp)
  | case3 => intro _; rfl

theorem dropWhile_no {p : Char → Bool} : ∀ {l : PyStr}, (∀ x ∈ l, p x = false) →
    l.dropWhile p = l := by
  intro l
  cases l with
  | nil => intro _; rfl
  | cons c r =>
    intro h
    rw [List.dropWhile_cons, h c (by simp)]
    simp

theorem dropWhile_of_takeWhile_nil {p : Char → Bool} : ∀ {l : PyStr},
    l.takeWhile p = [] → l.dropWhile p = l := by
  intro l
  cases l with
  | nil => intro _; rfl
  | cons c r =>
    intro h
    rw [List.takeWhile_cons] at h
    rw [List.dropWhile_cons]
    by_cases hp : p c
    · rw [if_pos hp] at h; exact absurd h (by simp)
    · rw [if_neg hp]

theorem takeWhile_dropWhile_nil {p : Char → Bool} : ∀ {l : PyStr},
    (l.dropWhile p).takeWhile p = [] := by
  intro l
  induction l with
  | nil => rfl
  | cons c r ih =>
    rw [List.dropWhile_cons]
    by_cases hp : p c
    · rw [if_pos hp]; exact ih
    · rw [if_neg hp, List.takeWhile_cons, if_neg hp]

theorem reverse_drop_decomp (s : PyStr) (n : Nat) :
    s = (s.reverse.drop n).reverse ++ (s.reverse.take n).reverse := by
  conv_lhs => rw [← List.reverse_reverse s, ← List.take_append_drop n s.reverse]
  rw [List.reverse_append]

theorem stripVNum_front (s : PyStr) : ∃ b, s = stripVNum s ++ b := by
  unfold stripVNum
  by_cases h : s.reverse.takeWhile Char.isDigit ≠ [] ∧
      (s.reverse.drop (s.reverse.takeWhile Char.isDigit).length).head? = some 'v'
  · rw [if_pos h]
    exact ⟨(s.reverse.take ((s.reverse.takeWhile Char.isDigit).length + 1)).reverse,
      reverse_drop_decomp s _⟩
  · rw [if_neg h]
    exact ⟨[], by simp⟩

theorem dropWhile_eq_drop_takeWhile {p : Char → Bool} : ∀ (l : PyStr),
    l.dropWhile p = l.drop (l.takeWhile p).length := by
  intro l
  induction l with
  | nil => rfl
  | cons c r ih =>
    rw [List.dropWhile_cons, List.takeWhile_cons]
    by_cases hp : p c
    · rw [if_pos hp, if_pos hp]
      simpa using ih
    · rw [if_neg hp, if_neg hp]
      simp

theorem takeWhile_eq_take_length {p : Char → Bool} : ∀ (l : PyStr),
    l.takeWhile p = l.take (l.takeWhile p).length := by
  intro l
  induction l with
  | nil => rfl
  | cons c r ih =>
    rw [List.takeWhile_cons]
    by_cases hp : p c
    · rw [if_pos hp]
      simp only [List.length_cons, List.take_succ_cons]
      rw [← ih]
    · rw [if_neg hp]
      simp

theorem stripDigitsEnd_front (s : PyStr) : ∃ b, s = stripDigitsEnd s ++ b := by
  unfold stripDigitsEnd
  refine ⟨(s.reverse.takeWhile Char.isDigit).reverse, ?_⟩
  rw [dropWhile_eq_drop_takeWhile]
  conv_lhs => rw [reverse_drop_decomp s (s.reverse.takeWhile Char.isDigit).length]
  congr 1
  rw [← takeWhile_eq_take_length]

theorem stripVNum_eq_self {s : PyStr} (h : s.reverse.takeWhile Char.isDigit = []) :
    stripVNum s = s := by
  unfold stripVNum
  rw [if_neg (by simp [h])]

theorem stripDigitsEnd_eq_self {s : PyStr} (h : s.reverse.takeWhile Char.isDigit = []) :
    stripDigitsEnd s = s := by
  unfold stripDigitsEnd
  rw [dropWhile_of_takeWhile_nil h, List.reverse_reverse]

theorem stripUnd_eq_self {s : PyStr} (h : '_' ∉ s) : stripUnd s = s := by
  unfold stripUnd
  have h1 : ∀ x ∈ s, (x == '_') = false := by
    intro x hx
    simp only [beq_eq_false_iff_ne, ne_eq]
    intro he
    subst he
    exact h hx
  rw [dropWhile_no h1]
  rw [dropWhile_no (by intro x hx; exact h1 x (by simpa using hx))]
  simp

theorem stripDigitsEnd_no_digits (s : PyStr) :
    (stripDigitsEnd s).reverse.takeWhile Char.isDigit = [] := by
  unfold stripDigitsEnd
  rw [List.reverse_reverse]
  exact takeWhile_dropWhile_nil

theorem lowered_lowerL (t : PyStr) : ∀ c ∈ lowerL t, c.toLower = c := by
  intro c hc
  rw [lowerL, List.mem_map] at hc
  obtain ⟨x, _, hx⟩ := hc
  rw [← hx]
  exact toLower_toLower x

theorem underscore_not_mem_lowerL {t : PyStr} (h : '_' ∉ t) : '_' ∉ lowerL t := by
  intro hc
  rw [lowerL, List.mem_map] at hc
  obtain ⟨x, hx, hxe⟩ := hc
  exact toLower_ne_underscore (fun he => h (he ▸ hx)) hxe

/-- All facts about `clean_token t` needed for stability, for a token
without underscores whose lower-cased form contains no `tkz`. -/
theorem clean_token_facts {t : PyStr} (htkz : hasSubB "tkz".data (lowerL t) = false)
    (hu : '_' ∉ t) :
    (∀ c ∈ clean_token t, c.toLower = c) ∧
    hasSubB "tkz".data (clean_token t) = false ∧
    '_' ∉ clean_token t ∧
    (clean_token t).reverse.takeWhile Char.isDigit = [] := by
  have hCT : clean_token t = stripDigitsEnd (stripVNum (lowerL t)) := by
    unfold clean_token
    rw [removeTkz_eq_self htkz]
    apply stripUnd_eq_self
    intro hmem
    obtain ⟨b1, hb1⟩ := stripVNum_front (lowerL t)
    obtain ⟨b2, hb2⟩ := stripDigitsEnd_front (stripVNum (lowerL t))
    have : '_' ∈ lowerL t := by
      rw [hb1, hb2]
      simp only [List.mem_append]
      exact Or.inl (Or.inl hmem)
    exact underscore_not_mem_lowerL hu this
  have hdecomp : ∃ b, lowerL t = clean_token t ++ b := by
    rw [hCT]
    obtain ⟨b1, hb1⟩ := stripVNum_front (lowerL t)
    obtain ⟨b2, hb2⟩ := stripDigitsEnd_front (stripVNum (lowerL t))
    refine ⟨b2 ++ b1, ?_⟩
    conv_lhs => rw [hb1, hb2]
    simp [List.append_assoc]
  obtain ⟨b, hb⟩ := hdecomp
  refine ⟨?_, ?_, ?_, ?_⟩
  · intro c hc
    exact lowered_lowerL t c (by rw [hb]; simp [hc])
  · have : hasSubB "tkz".data (clean_token t ++ b) = false := by rw [← hb]; exact htkz
    exact hasSubB_false_of_append_right this
  · intro hmem
    exact underscore_not_mem_lowerL hu (by rw [hb]; simp [hmem])
  · rw [hCT]
    exact stripDigitsEnd_no_digits _

/-- `clean_token` fixes an already-cleaned token. -/
theorem clean_token_self {c : PyStr} (h1 : ∀ ch ∈ c, ch.toLower = ch)
    (h2 : hasSubB "tkz".data c = false) (h3 : '_' ∉ c)
    (h4 : c.reverse.takeWhile Char.isDigit = []) : clean_token c = c := by
  unfold clean_token
  rw [show lowerL c = c from mapIdOn h1, removeTkz_eq_self h2,
    stripVNum_eq_self h4, stripDigitsEnd_eq_self h4, stripUnd_eq_self h3]

theorem lowerL_pyCapitalize {c : PyStr} (h1 : ∀ ch ∈ c, ch.toLower = ch) :
    lowerL (pyCapitalize c) = c := by
  cases c with
  | nil => rfl
  | cons c0 cs =>
    rw [pyCapitalize, lowerL, List.map_cons, toLower_toUpper, h1 c0 (by simp)]
    congr 1
    show lowerL (lowerL cs) = cs
    rw [show lowerL cs = cs from mapIdOn (fun x hx => h1 x (by simp [hx]))]
    exact mapIdOn (fun x hx => h1 x (by simp [hx]))

theorem clean_token_via_lower {w c : PyStr} (hl : lowerL w = c)
    (h2 : hasSubB "tkz".data c = false) (h3 : '_' ∉ c)
    (h4 : c.reverse.takeWhile Char.isDigit = []) : clean_token w = c := by
  unfold clean_token
  rw [hl, removeTkz_eq_self h2, stripVNum_eq_self h4, stripDigitsEnd_eq_self h4,
    stripUnd_eq_self h3]

/-- The output of `format_token` on an underscore-free token whose
lower-cased form contains no `tkz` is a stable token (when non-empty). -/
theorem stableTok_format {t : PyStr} (hu : '_' ∉ t)
    (htkz : hasSubB "tkz".data (lowerL t) = false)
    (hne : format_token t ≠ []) : StableTok (format_token t) := by
  obtain ⟨hc1, hc2, hc3, hc4⟩ := clean_token_facts htkz hu
  have hcne : (clean_token t).isEmpty = false := by
    cases hemp : (clean_token t).isEmpty with
    | false => rfl
    | true =>
      exfalso
      apply hne
      unfold format_token
      simp [hemp]
  have hfmt : format_token t = (match FINGER_MAP (clean_token t) with
      | some f => f
      | none => pyCapitalize (clean_token t)) := by
    unfold format_token
    simp [hcne]
  cases hfing : FINGER_MAP (clean_token t) with
  | some f =>
    rw [hfing] at hfmt
    dsimp only at hfmt
    have hcval : clean_token t = "index".data ∧ f = "Index".data ∨
        clean_token t = "middle".data ∧ f = "Middle".data ∨
        clean_token t = "middy".data ∧ f = "Middle".data ∨
        clean_token t = "ring".data ∧ f = "Ring".data ∨
        clean_token t = "ringy".data ∧ f = "Ring".data ∨
        clean_token t = "pinky".data ∧ f = "Pinky".data := by
      unfold FINGER_MAP at hfing
      split_ifs at hfing with h1 h2 h3 h4 h5 h6
      · exact Or.inl ⟨h1, (Option.some.inj hfing).symm⟩
      · exact Or.inr (Or.inl ⟨h2, (Option.some.inj hfing).symm⟩)
      · exact Or.inr (Or.inr (Or.inl ⟨h3, (Option.some.inj hfing).symm⟩))
      · exact Or.inr (Or.inr (Or.inr (Or.inl ⟨h4, (Option.some.inj hfing).symm⟩)))
      · exact Or.inr (Or.inr (Or.inr (Or.inr (Or.inl ⟨h5, (Option.some.inj hfing).symm⟩))))
      · exact Or.inr (Or.inr (Or.inr (Or.inr (Or.inr ⟨h6, (Option.some.inj hfing).symm⟩))))
    rw [hfmt]
    rcases hcval with ⟨_, hf⟩ | ⟨_, hf⟩ | ⟨_, hf⟩ | ⟨_, hf⟩ | ⟨_, hf⟩ | ⟨_, hf⟩ <;>
      (subst hf; unfold StableTok; refine ⟨by decide, by decide, by decide, by decide⟩)
  | none =>
    rw [hfing] at hfmt
    have hlow : lowerL (pyCapitalize (clean_token t)) = clean_token t :=
      lowerL_pyCapitalize hc1
    have hcw : clean_token (pyCapitalize (clean_token t)) = clean_token t :=
      clean_token_via_lower hlow hc2 hc3 hc4
    have hfw : format_token (pyCapitalize (clean_token t)) = pyCapitalize (clean_token t) := by
      unfold format_token
      simp only [hcw, hcne, hfing]
      simp
    obtain ⟨c0, cs, hcons⟩ : ∃ c0 cs, clean_token t = c0 :: cs := by
      cases hc : clean_token t with
      | nil => rw [hc] at hcne; exact absurd hcne (by simp)
      | cons c0 cs => exact ⟨c0, cs, rfl⟩
    refine ⟨by rw [hfmt]; exact hfw, ?_, ?_, ?_⟩
    · rw [hfmt, hcons, pyCapitalize]
      simp
    · rw [hfmt, hcons, pyCapitalize]
      intro hmem
      rcases List.mem_cons.mp hmem with hmem | hmem
      · exact toUpper_ne_underscore (fun he => hc3 (by rw [hcons]; simp [he])) hmem.symm
      · rw [lowerL, List.mem_map] at hmem
        obtain ⟨z, hz, hze⟩ := hmem
        exact toLower_ne_underscore
          (fun he => hc3 (by rw [hcons]; simp [he ▸ hz])) hze
    · rw [hfmt, hlow]
      by_cases hh : clean_token t = "hold".data
      · right
        rw [hh]
        have : pyCapitalize "hold".data = "Hold".data := by decide
        rw [this]
        rfl
      · by_cases ht2 : clean_token t = "tap".data
        · right
          rw [ht2]
          have : pyCapitalize "tap".data = "Tap".data := by decide
          rw [this]
          rfl
        · left
          unfold ROLE_MAP
          rw [if_neg hh, if_neg ht2]

theorem joinU_single (t : PyStr) : joinU [t] = t := by simp [joinU, List.intercalate]

theorem joinU_cons (t r : PyStr) (ts : List PyStr) :
    joinU (t :: r :: ts) = t ++ '_' :: joinU (r :: ts) := by
  simp [joinU, List.intercalate, List.intersperse]

theorem joinU_concat (r : PyStr) : ∀ (ts : List PyStr), ts ≠ [] →
    joinU (ts ++ [r]) = joinU ts ++ '_' :: r := by
  intro ts
  induction ts with
  | nil => intro h; exact absurd rfl h
  | cons t ts ih =>
    intro _
    cases ts with
    | nil => rw [joinU_single, show [t] ++ [r] = [t, r] from rfl, joinU_cons, joinU_single]
    | cons r2 rs =>
      rw [List.cons_append, List.cons_append, joinU_cons t r2 (rs ++ [r])]
      rw [show r2 :: (rs ++ [r]) = (r2 :: rs) ++ [r] from by simp, ih (by simp),
        joinU_cons t r2 rs]
      simp

theorem splitU_ne_nil : ∀ (s : PyStr), splitU s ≠ [] := by
  intro s
  induction s using splitU.induct with
  | case1 => simp [splitU]
  | case2 rest ih => rw [splitU]; simp
  | case3 c rest hc hsp ih => exact absurd hsp ih
  | case4 c rest hc t ts hsp ih =>
    rw [splitU.eq_3 c rest hc, hsp]
    simp

theorem splitU_single : ∀ {a : PyStr}, '_' ∉ a → splitU a = [a] := by
  intro a
  induction a with
  | nil => intro _; rfl
  | cons c a' ih =>
    intro h
    have hc : c = '_' → False := fun he => h (by simp [he])
    rw [splitU.eq_3 c a' hc, ih (fun hm => h (by simp [hm]))]

theorem splitU_append_underscore : ∀ {a : PyStr} (b : PyStr), '_' ∉ a →
    splitU (a ++ '_' :: b) = a :: splitU b := by
  intro a
  induction a with
  | nil =>
    intro b _
    rw [List.nil_append, splitU]
  | cons c a' ih =>
    intro b h
    have hc : c = '_' → False := fun he => h (by simp [he])
    rw [List.cons_append, splitU.eq_3 c (a' ++ '_' :: b) hc, ih b (fun hm => h (by simp [hm]))]

theorem splitU_joinU : ∀ {ts : List PyStr}, ts ≠ [] → (∀ w ∈ ts, '_' ∉ w) →
    splitU (joinU ts) = ts := by
  intro ts
  induction ts with
  | nil => intro h _; exact absurd rfl h
  | cons t ts ih =>
    intro _ hw
    cases ts with
    | nil => rw [joinU_single]; exact splitU_single (hw t (by simp))
    | cons r rs =>
      rw [joinU_cons, splitU_append_underscore _ (hw t (by simp)),
        ih (by simp) (fun w hm => hw w (by simp [hm]))]

theorem splitU_mem_no_underscore : ∀ {s t : PyStr}, t ∈ splitU s → '_' ∉ t := by
  intro s
  induction s using splitU.induct with
  | case1 =>
    intro t ht
    simp [splitU] at ht
    subst ht
    simp
  | case2 rest ih =>
    intro t ht
    rw [splitU] at ht
    rcases List.mem_cons.mp ht with ht | ht
    · subst ht; simp
    · exact ih ht
  | case3 c rest hc hsp ih => exact absurd hsp (splitU_ne_nil rest)
  | case4 c rest hc t0 ts hsp ih =>
    intro t ht
    rw [splitU.eq_3 c rest hc, hsp] at ht
    rcases List.mem_cons.mp ht with hte | hte
    · subst hte
      intro hmem
      rcases List.mem_cons.mp hmem with hm | hm
      · exact hc hm.symm
      · exact ih (by rw [hsp]; simp) hm
    · exact ih (by rw [hsp]; simp [hte])

theorem splitU_head_front : ∀ {s : PyStr} {t0 : PyStr} {ts : List PyStr},
    splitU s = t0 :: ts → ∃ b, s = t0 ++ b := by
  intro s
  induction s using splitU.induct with
  | case1 =>
    intro t0 ts h
    rw [splitU] at h
    injection h with h1 _
    exact ⟨[], by simp [h1.symm]⟩
  | case2 rest ih =>
    intro t0 ts h
    rw [splitU] at h
    injection h with h1 _
    exact ⟨'_' :: rest, by simp [h1.symm]⟩
  | case3 c rest hc hsp ih => exact absurd hsp (splitU_ne_nil rest)
  | case4 c rest hc t0 ts hsp ih =>
    intro t1 ts1 h
    rw [splitU.eq_3 c rest hc, hsp] at h
    injection h with h1 h2
    obtain ⟨b, hb⟩ := ih hsp
    exact ⟨b, by rw [← h1, hb]; simp⟩

theorem splitU_hasSub_false {p : PyStr} : ∀ (s : PyStr), hasSubB p s = false →
    ∀ t ∈ splitU s, hasSubB p t = false := by
  intro s
  induction s using splitU.induct with
  | case1 =>
    intro h t ht
    simp [splitU] at ht
    subst ht
    rw [hasSubB]
    cases hp : p with
    | nil => exact absurd hp (hasSubB_false_ne_nil h)
    | cons c r => simp
  | case2 rest ih =>
    intro h t ht
    have htail : hasSubB p rest = false :=
      hasSubB_false_of_append_left ['_'] (by simpa using h)
    rw [splitU] at ht
    rcases List.mem_cons.mp ht with ht | ht
    · subst ht
      rw [hasSubB]
      cases hp : p with
      | nil => exact absurd hp (hasSubB_false_ne_nil h)
      | cons c r => simp
    · exact ih htail t ht
  | case3 c rest hc hsp ih => exact absurd hsp (splitU_ne_nil rest)
  | case4 c rest hc t0 ts hsp ih =>
    intro h t ht
    have htail : hasSubB p rest = false :=
      hasSubB_false_of_append_left [c] (by simpa using h)
    rw [splitU.eq_3 c rest hc, hsp] at ht
    rcases List.mem_cons.mp ht with hte | hte
    · subst hte
      obtain ⟨b, hb⟩ := splitU_head_front hsp
      have hs : hasSubB p ((c :: t0) ++ b) = false := by
        rw [hb] at h
        simpa using h
      exact hasSubB_false_of_append_right hs
    · exact ih htail t (by rw [hsp]; simp [hte])

theorem splitU_lowerL : ∀ (s : PyStr), splitU (lowerL s) = (splitU s).map lowerL := by
  intro s
  induction s using splitU.induct with
  | case1 => rfl
  | case2 rest ih =>
    have hl : lowerL ('_' :: rest) = '_' :: lowerL rest := by
      simp only [lowerL, List.map_cons]
      congr 1
    rw [hl, splitU, ih, splitU]
    rfl
  | case3 c rest hc hsp ih => exact absurd hsp (splitU_ne_nil rest)
  | case4 c rest hc t0 ts hsp ih =>
    have hcl : c.toLower = '_' → False := fun he =>
      toLower_ne_underscore (fun h2 => hc h2) he
    have hl : lowerL (c :: rest) = c.toLower :: lowerL rest := by
      simp only [lowerL, List.map_cons]
    rw [hl, splitU.eq_3 c.toLower (lowerL rest) hcl, ih, hsp,
      splitU.eq_3 c rest hc, hsp]
    rfl

theorem filter_format_stable : ∀ {l : List PyStr}, (∀ w ∈ l, format_token w = w ∧ w ≠ []) →
    (l.map format_token).filter (fun t => ¬ t.isEmpty) = l := by
  intro l
  induction l with
  | nil => intro _; rfl
  | cons w ws ih =>
    intro h
    rw [List.map_cons, List.filter_cons]
    have hw := h w (by simp)
    rw [hw.1]
    have : (decide ¬ w.isEmpty = true) = true := by
      simp only [decide_not, Bool.not_eq_true', decide_eq_false_iff_not]
      simp [List.isEmpty_iff, hw.2]
    rw [if_pos (by simpa using this)]
    rw [ih (fun x hx => h x (by simp [hx]))]

theorem buildName (H c0 : PyStr) (cN : List PyStr) (role : Option PyStr) :
    "&BHRM_".data ++ H ++ ['_'] ++ c0
      ++ (if cN.isEmpty then [] else ['_'] ++ joinU cN)
      ++ (match role with | some r => ['_'] ++ r | none => ([] : PyStr))
    = "&BHRM_".data ++ H ++ '_' :: joinU ((c0 :: cN)
        ++ (match role with | some r => [r] | none => [])) := by
  cases role with
  | none =>
    cases cN with
    | nil => simp [joinU_single]
    | cons r2 rs => simp [joinU_cons, List.append_assoc]
  | some r =>
    cases cN with
    | nil =>
      have : joinU ([c0] ++ [r]) = joinU [c0] ++ '_' :: r := joinU_concat r [c0] (by simp)
      rw [this, joinU_single]
      simp [List.append_assoc]
    | cons r2 rs =>
      have h1 : joinU ((c0 :: r2 :: rs) ++ [r]) = joinU (c0 :: r2 :: rs) ++ '_' :: r :=
        joinU_concat r (c0 :: r2 :: rs) (by simp)
      rw [h1, joinU_cons]
      simp [List.append_assoc]

/-- A canonical `&BHRM_` name built from an upper-case hand token and
stable tokens is a fixed point of `canonicalize_bhrm`. -/
theorem canonicalize_fix (H : PyStr) (ts : List PyStr) (hH : '_' ∉ H)
    (hHu : upperL H = H) (hts : ∀ w ∈ ts, StableTok w) (hne : ts ≠ []) :
    canonicalize_bhrm ("&BHRM_".data ++ H ++ '_' :: joinU ts)
      = "&BHRM_".data ++ H ++ '_' :: joinU ts := by
  have hwu : ∀ w ∈ ts, '_' ∉ w := fun w hw => ((hts w hw).2.2.1)
  have hassoc : "&BHRM_".data ++ H ++ '_' :: joinU ts
      = "&BHRM_".data ++ (H ++ '_' :: joinU ts) := by simp [List.append_assoc]
  have hpre : "&BHRM_".data.isPrefixOf ("&BHRM_".data ++ H ++ '_' :: joinU ts) = true := by
    rw [ List.isPrefixOf_iff_prefix, hassoc]
    exact List.prefix_append _ _
  have hdrop : ("&BHRM_".data ++ H ++ '_' :: joinU ts).drop 6 = H ++ '_' :: joinU ts := by
    rw [hassoc, show (6 : Nat) = "&BHRM_".data.length from rfl]
    exact List.drop_left _ _
  have hsplit : splitU (("&BHRM_".data ++ H ++ '_' :: joinU ts).drop 6) = H :: ts := by
    rw [hdrop, splitU_append_underscore _ hH, splitU_joinU hne hwu]
  rw [canonicalize_bhrm.eq_def]
  rw [if_neg (by rw [hpre]; exact fun hcon => hcon rfl)]
  rw [hsplit]
  dsimp only
  cases ts with
  | nil => exact absurd rfl hne
  | cons w0 ws =>
  dsimp only
  have htl_mem : (w0 :: ws).getLastD [] ∈ w0 :: ws := by
    rw [List.getLastD_eq_getLast?, List.getLast?_eq_getLast (w0 :: ws) (by simp)]
    simp only [Option.getD_some]
    exact List.getLast_mem _
  cases hrole : ROLE_MAP (lowerL ((w0 :: ws).getLastD [])) with
  | none =>
    dsimp only
    rw [filter_format_stable (fun w hw => ⟨(hts w hw).1, (hts w hw).2.1⟩)]
    dsimp only
    have hb := buildName (upperL H) w0 ws none
    simp only at hb
    rw [hb, hHu]
    simp
  | some r =>
    have hstl := hts _ htl_mem
    have htlr : (w0 :: ws).getLastD [] = r := by
      rcases hstl.2.2.2 with hn | hs
      · rw [hn] at hrole; exact Option.noConfusion hrole
      · rw [hs] at hrole; exact Option.some.inj hrole
    dsimp only
    cases hdl : (w0 :: ws).dropLast with
    | nil =>
      have hws : ws = [] := by
        cases ws with
        | nil => rfl
        | cons a as => simp at hdl
      subst hws
      simp
    | cons d0 ds =>
      have hsub : ∀ w ∈ (w0 :: ws).dropLast, w ∈ w0 :: ws :=
        fun w hw => List.dropLast_sublist (w0 :: ws) |>.subset hw
      rw [hdl] at hsub
      rw [filter_format_stable (fun w hw =>
        ⟨(hts w (hsub w hw)).1, (hts w (hsub w hw)).2.1⟩)]
      dsimp only
      have hb := buildName (upperL H) d0 ds (some r)
      simp only at hb
      rw [hb, hHu]
      have hts_eq : (w0 :: ws) = (d0 :: ds) ++ [r] := by
        rw [← htlr, ← hdl]
        rw [List.getLastD_eq_getLast?, List.getLast?_eq_getLast (w0 :: ws) (by simp)]
        simp only [Option.getD_some]
        exact (List.dropLast_append_getLast (by simp)).symm
      rw [show joinU (w0 :: ws) = joinU ((d0 :: ds) ++ [r]) from by rw [← hts_eq]]

theorem ROLE_MAP_values {z r : PyStr} (h : ROLE_MAP z = some r) :
    r = "Hold".data ∨ r = "Tap".data := by
  unfold ROLE_MAP at h
  split_ifs at h with h1 h2
  · exact Or.inl (Option.some.inj h).symm
  · exact Or.inr (Option.some.inj h).symm

theorem HAND_MAP_values {z h : PyStr} (hh : HAND_MAP z = some h) :
    h = "L".data ∨ h = "R".data := by
  unfold HAND_MAP at hh
  split_ifs at hh with h1 h2
  · exact Or.inl (Option.some.inj hh).symm
  · exact Or.inr (Option.some.inj hh).symm

theorem stableTok_role {z r : PyStr} (h : ROLE_MAP z = some r) : StableTok r := by
  rcases ROLE_MAP_values h with hr | hr <;>
    (subst hr; unfold StableTok; exact ⟨by decide, by decide, by decide, by decide⟩)

theorem upperL_no_underscore {h : PyStr} (hu : '_' ∉ h) : '_' ∉ upperL h := by
  intro hc
  rw [upperL, List.mem_map] at hc
  obtain ⟨z, hz, hze⟩ := hc
  exact toUpper_ne_underscore (fun he => hu (he ▸ hz)) hze

theorem upperL_idem (h : PyStr) : upperL (upperL h) = upperL h := by
  simp only [upperL, List.map_map]
  exact List.map_eq_map_iff.mpr (fun a _ => toUpper_toUpper a)

/-- Tokens of the underscore-split of a suffix of `x` are stable, when
the lower-cased `x` contains no `tkz`. -/
theorem stableTok_of_split {x ti : PyStr} {n : Nat}
    (htkz : hasSubB "tkz".data (lowerL x) = false)
    (hmem : ti ∈ splitU ((x.drop n))) (hfne : format_token ti ≠ []) :
    StableTok (format_token ti) := by
  have h1 : '_' ∉ ti := splitU_mem_no_underscore hmem
  have hdropl : lowerL (x.drop n) = (lowerL x).drop n := by
    simp [lowerL, List.map_drop]
  have hsuf : hasSubB "tkz".data ((lowerL x).drop n) = false := by
    have hx : lowerL x = (lowerL x).take n ++ (lowerL x).drop n :=
      (List.take_append_drop n (lowerL x)).symm
    exact hasSubB_false_of_append_left _ (by rw [← hx]; exact htkz)
  have h2 : hasSubB "tkz".data (lowerL ti) = false := by
    apply splitU_hasSub_false (lowerL (x.drop n)) (by rw [hdropl]; exact hsuf)
    rw [splitU_lowerL]
    exact List.mem_map_of_mem lowerL hmem
  exact stableTok_format h1 h2 hfne

/-- Every result of `canonicalize_bhrm` on a `tkz`-free string is either
the input itself or a canonical name made of stable tokens. -/
theorem canonicalize_form {x : PyStr} (htkz : hasSubB "tkz".data (lowerL x) = false) :
    canonicalize_bhrm x = x ∨
    ∃ H ts, '_' ∉ H ∧ upperL H = H ∧ (∀ w ∈ ts, StableTok w) ∧ ts ≠ [] ∧
      canonicalize_bhrm x = "&BHRM_".data ++ H ++ '_' :: joinU ts := by
  rw [canonicalize_bhrm.eq_def]
  by_cases hpre : ¬ ("&BHRM_".data.isPrefixOf x) = true
  · rw [if_pos hpre]
    exact Or.inl rfl
  · rw [if_neg hpre]
    cases hsp : splitU (x.drop 6) with
    | nil => exact Or.inl rfl
    | cons hand0 rest =>
      dsimp only
      cases rest with
      | nil => exact Or.inl rfl
      | cons r0 rs =>
        dsimp only
        have hhand : hand0 ∈ splitU (x.drop 6) := by rw [hsp]; simp
        have hH1 : '_' ∉ upperL hand0 :=
          upperL_no_underscore (splitU_mem_no_underscore hhand)
        have hH2 : upperL (upperL hand0) = upperL hand0 := upperL_idem hand0
        have hrsub : ∀ ti ∈ r0 :: rs, ti ∈ splitU (x.drop 6) := by
          intro ti hti
          rw [hsp]
          simp [hti]
        have hstable : ∀ (l : List PyStr), (∀ ti ∈ l, ti ∈ r0 :: rs) →
            ∀ w ∈ (l.map format_token).filter (fun t => ¬ t.isEmpty), StableTok w := by
          intro l hl w hw
          rw [List.mem_filter] at hw
          obtain ⟨hw1, hw2⟩ := hw
          rw [List.mem_map] at hw1
          obtain ⟨ti, hti, htie⟩ := hw1
          have hfne : format_token ti ≠ [] := by
            rw [htie]
            intro he
            rw [he] at hw2
            simp at hw2
          rw [← htie]
          exact stableTok_of_split htkz (hrsub ti (hl ti hti)) hfne
        cases hrole : ROLE_MAP (lowerL ((r0 :: rs).getLastD [])) with
        | none =>
          dsimp only
          cases hcl : ((r0 :: rs).map format_token).filter (fun t => ¬ t.isEmpty) with
          | nil => exact Or.inl rfl
          | cons c0 cN =>
            refine Or.inr ⟨upperL hand0, (c0 :: cN) ++ [], hH1, hH2, ?_, by simp, ?_⟩
            · intro w hw
              simp only [List.append_nil] at hw
              exact hstable (r0 :: rs) (fun ti hti => hti) w (by rw [hcl]; exact hw)
            · have hb := buildName (upperL hand0) c0 cN none
              simp only at hb ⊢
              rw [hb]
        | some r =>
          dsimp only
          cases hcl : (((r0 :: rs).dropLast).map format_token).filter (fun t => ¬ t.isEmpty) with
          | nil => exact Or.inl rfl
          | cons c0 cN =>
            refine Or.inr ⟨upperL hand0, (c0 :: cN) ++ [r], hH1, hH2, ?_, by simp, ?_⟩
            · intro w hw
              rcases List.mem_append.mp hw with hw | hw
              · refine hstable ((r0 :: rs).dropLast)
                  (fun ti hti => (List.dropLast_sublist (r0 :: rs)).subset hti) w ?_
                rw [hcl]
                exact hw
              · rw [List.mem_singleton] at hw
                subst hw
                exact stableTok_role hrole
            · have hb := buildName (upperL hand0) c0 cN (some r)
              simp only at hb ⊢
              rw [hb]

/-- C4 (amended): `canonicalize_bhrm` is idempotent on every string whose
lower-cased form does not contain the substring `tkz` (removing `tkz`
from a token can re-form another `tkz`, which breaks idempotence in
general — see the counterexample). -/
theorem C4_canonicalize_idempotent_no_tkz (x : PyStr)
    (htkz : hasSubB "tkz".data (lowerL x) = false) :
    canonicalize_bhrm (canonicalize_bhrm x) = canonicalize_bhrm x := by
  rcases canonicalize_form htkz with he | ⟨H, ts, h1, h2, h3, h4, he⟩
  · rw [he]
    exact he
  · rw [he]
    exact canonicalize_fix H ts h1 h2 h3 h4

/-- Witness for C4 at a concrete `tkz`-free name. -/
theorem C4_canonicalize_idempotent_witness :
    canonicalize_bhrm (canonicalize_bhrm "&BHRM_l_ring_hold".data) =
      canonicalize_bhrm "&BHRM_l_ring_hold".data :=
  C4_canonicalize_idempotent_no_tkz "&BHRM_l_ring_hold".data (by decide)

theorem normalize_base_front : ∀ (s : PyStr), ∃ b, s = normalize_base s ++ b := by
  intro s
  induction s using normalize_base.induct with
  | case1 rest h =>
    refine ⟨'_' :: 'v' :: rest, ?_⟩
    rw [normalize_base, if_pos h]
    rfl
  | case2 rest h ih =>
    obtain ⟨b, hb⟩ := ih
    refine ⟨b, ?_⟩
    rw [normalize_base, if_neg h, List.cons_append, ← hb]
  | case3 c rest hx ih =>
    obtain ⟨b, hb⟩ := ih
    refine ⟨b, ?_⟩
    rw [normalize_base.eq_2 c rest hx, List.cons_append, ← hb]
  | case4 => exact ⟨[], rfl⟩

/-- Tokens of the underscore-split of any string whose lower-cased form
contains no `tkz` are stable after formatting. -/
theorem stableTok_of_split_any {s ti : PyStr}
    (hs : hasSubB "tkz".data (lowerL s) = false)
    (hmem : ti ∈ splitU s) (hfne : format_token ti ≠ []) :
    StableTok (format_token ti) := by
  have h1 : '_' ∉ ti := splitU_mem_no_underscore hmem
  have h2 : hasSubB "tkz".data (lowerL ti) = false := by
    apply splitU_hasSub_false (lowerL s) hs
    rw [splitU_lowerL]
    exact List.mem_map_of_mem lowerL hmem
  exact stableTok_format h1 h2 hfne

theorem rename_fold_facts :
    ∀ (l : List PyStr) (acc : Option PyStr × List PyStr),
      (∀ w ∈ (l.foldl (fun acc tok =>
        match ROLE_MAP (lowerL tok) with
        | some rv => if acc.1 = none then (some rv, acc.2) else (acc.1, acc.2 ++ [tok])
        | none => (acc.1, acc.2 ++ [tok])) acc).2, w ∈ acc.2 ∨ w ∈ l) ∧
      ((l.foldl (fun acc tok =>
        match ROLE_MAP (lowerL tok) with
        | some rv => if acc.1 = none then (some rv, acc.2) else (acc.1, acc.2 ++ [tok])
        | none => (acc.1, acc.2 ++ [tok])) acc).1 = acc.1 ∨
        ∃ z, (l.foldl (fun acc tok =>
          match ROLE_MAP (lowerL tok) with
          | some rv => if acc.1 = none then (some rv, acc.2) else (acc.1, acc.2 ++ [tok])
          | none => (acc.1, acc.2 ++ [tok])) acc).1 = some z ∧
          (z = "Hold".data ∨ z = "Tap".data)) := by
  intro l
  induction l with
  | nil => exact fun acc => ⟨fun w hw => Or.inl hw, Or.inl rfl⟩
  | cons tok l ih =>
    intro acc
    rw [List.foldl_cons]
    have hstep : (match ROLE_MAP (lowerL tok) with
        | some rv => if acc.1 = none then (some rv, acc.2) else (acc.1, acc.2 ++ [tok])
        | none => (acc.1, acc.2 ++ [tok])).2 = acc.2 ∨
        (match ROLE_MAP (lowerL tok) with
        | some rv => if acc.1 = none then (some rv, acc.2) else (acc.1, acc.2 ++ [tok])
        | none => (acc.1, acc.2 ++ [tok])).2 = acc.2 ++ [tok] := by
      cases hc : ROLE_MAP (lowerL tok) with
      | none => exact Or.inr rfl
      | some rv =>
        by_cases ha : acc.1 = none
        · simp [ha]
        · simp [ha]
    have hstep1 : (match ROLE_MAP (lowerL tok) with
        | some rv => if acc.1 = none then (some rv, acc.2) else (acc.1, acc.2 ++ [tok])
        | none => (acc.1, acc.2 ++ [tok])).1 = acc.1 ∨
        ∃ z, (match ROLE_MAP (lowerL tok) with
        | some rv => if acc.1 = none then (some rv, acc.2) else (acc.1, acc.2 ++ [tok])
        | none => (acc.1, acc.2 ++ [tok])).1 = some z ∧
          (z = "Hold".data ∨ z = "Tap".data) := by
      cases hc : ROLE_MAP (lowerL tok) with
      | none => exact Or.inl rfl
      | some rv =>
        by_cases ha : acc.1 = none
        · simp only [ha, if_pos]
          exact Or.inr ⟨rv, rfl, ROLE_MAP_values hc⟩
        · dsimp only
          rw [if_neg ha]
          exact Or.inl rfl
    constructor
    · intro w hw
      rcases (ih _).1 w hw with hw2 | hw2
      · rcases hstep with hs | hs
        · rw [hs] at hw2
          exact Or.inl hw2
        · rw [hs] at hw2
          rcases List.mem_append.mp hw2 with hw3 | hw3
          · exact Or.inl hw3
          · simp at hw3
            exact Or.inr (by simp [hw3])
      · exact Or.inr (by simp [hw2])
    · rcases (ih _).2 with h2 | h2
      · rw [h2]
        rcases hstep1 with hs | ⟨z, hz, hzv⟩
        · rw [hs]
          exact Or.inl rfl
        · exact Or.inr ⟨z, hz, hzv⟩
      · exact Or.inr h2

/-- Every result of `rename_hrm` on a `tkz`-free string is either the
input itself or a canonical name made of stable tokens. -/
theorem rename_form {x : PyStr} (htkz : hasSubB "tkz".data (lowerL x) = false) :
    rename_hrm x = x ∨
    ∃ H ts, '_' ∉ H ∧ upperL H = H ∧ (∀ w ∈ ts, StableTok w) ∧ ts ≠ [] ∧
      rename_hrm x = "&BHRM_".data ++ H ++ '_' :: joinU ts := by
  have hnb : hasSubB "tkz".data (lowerL (normalize_base (x.drop 1))) = false := by
    obtain ⟨b, hb⟩ := normalize_base_front (x.drop 1)
    have hd : hasSubB "tkz".data (lowerL (x.drop 1)) = false := by
      have hx : lowerL x = (lowerL x).take 1 ++ (lowerL x).drop 1 :=
        (List.take_append_drop 1 (lowerL x)).symm
      have hsuf : hasSubB "tkz".data ((lowerL x).drop 1) = false :=
        hasSubB_false_of_append_left _ (by rw [← hx]; exact htkz)
      rw [show lowerL (x.drop 1) = (lowerL x).drop 1 from by simp [lowerL, List.map_drop]]
      exact hsuf
    have : lowerL (x.drop 1) = lowerL (normalize_base (x.drop 1)) ++ lowerL b := by
      rw [show lowerL (normalize_base (x.drop 1)) ++ lowerL b
          = lowerL (normalize_base (x.drop 1) ++ b) from by simp [lowerL], ← hb]
    rw [this] at hd
    exact hasSubB_false_of_append_right hd
  rw [rename_hrm.eq_def]
  by_cases hpre : ¬ ("&HRM_".data.isPrefixOf x) = true
  · rw [if_pos hpre]
    exact Or.inl rfl
  · rw [if_neg hpre]
    cases hsp : splitU (normalize_base (x.drop 1)) with
    | nil => exact Or.inl rfl
    | cons p0 rest =>
      cases rest with
      | nil => exact Or.inl rfl
      | cons p1 prest =>
        dsimp only
        by_cases hlen : prest.length = 0
        · rw [if_pos hlen]
          exact Or.inl rfl
        · rw [if_neg hlen]
          by_cases hp0 : p0 ≠ "HRM".data
          · rw [if_pos hp0]
            exact Or.inl rfl
          · rw [if_neg hp0]
            cases hhand : HAND_MAP (lowerL p1) with
            | none => exact Or.inl rfl
            | some hand =>
              dsimp only
              cases hcl : (prest.map format_token).filter (fun t => ¬ t.isEmpty) with
              | nil => exact Or.inl rfl
              | cons t0 trest =>
                dsimp only
                have hHu : '_' ∉ hand ∧ upperL hand = hand := by
                  rcases HAND_MAP_values hhand with hh | hh <;>
                    (subst hh; exact ⟨by decide, by decide⟩)
                have hstable : ∀ w ∈ t0 :: trest, StableTok w := by
                  intro w hw
                  have hw2 : w ∈ (prest.map format_token).filter (fun t => ¬ t.isEmpty) := by
                    rw [hcl]
                    exact hw
                  rw [List.mem_filter] at hw2
                  obtain ⟨hw1, hwe⟩ := hw2
                  rw [List.mem_map] at hw1
                  obtain ⟨ti, hti, htie⟩ := hw1
                  have hfne : format_token ti ≠ [] := by
                    rw [htie]
                    intro he
                    rw [he] at hwe
                    simp at hwe
                  have hmem : ti ∈ splitU (normalize_base (x.drop 1)) := by
                    rw [hsp]
                    simp [hti]
                  rw [← htie]
                  exact stableTok_of_split_any hnb hmem hfne
                obtain ⟨hf2, hf1⟩ := rename_fold_facts trest ((none : Option PyStr), ([] : List PyStr))
                cases hr1 : (trest.foldl (fun acc tok =>
                    match ROLE_MAP (lowerL tok) with
                    | some rv => if acc.1 = none then (some rv, acc.2) else (acc.1, acc.2 ++ [tok])
                    | none => (acc.1, acc.2 ++ [tok])) ((none : Option PyStr), ([] : List PyStr))).1 with
                | none =>
                  refine Or.inr ⟨hand, (t0 :: (trest.foldl (fun acc tok =>
                      match ROLE_MAP (lowerL tok) with
                      | some rv => if acc.1 = none then (some rv, acc.2) else (acc.1, acc.2 ++ [tok])
                      | none => (acc.1, acc.2 ++ [tok])) ((none : Option PyStr), ([] : List PyStr))).2) ++ [],
                    hHu.1, hHu.2, ?_, by simp, ?_⟩
                  · intro w hw
                    simp only [List.append_nil] at hw
                    rcases List.mem_cons.mp hw with hw | hw
                    · exact hstable w (by simp [hw])
                    · rcases hf2 w hw with hw2 | hw2
                      · simp at hw2
                      · exact hstable w (by simp [hw2])
                  · have hb := buildName hand t0 ((trest.foldl (fun acc tok =>
                        match ROLE_MAP (lowerL tok) with
                        | some rv => if acc.1 = none then (some rv, acc.2) else (acc.1, acc.2 ++ [tok])
                        | none => (acc.1, acc.2 ++ [tok])) ((none : Option PyStr), ([] : List PyStr))).2) none
                    simp only at hb ⊢
                    rw [hb]
                | some z =>
                  refine Or.inr ⟨hand, (t0 :: (trest.foldl (fun acc tok =>
                      match ROLE_MAP (lowerL tok) with
                      | some rv => if acc.1 = none then (some rv, acc.2) else (acc.1, acc.2 ++ [tok])
                      | none => (acc.1, acc.2 ++ [tok])) ((none : Option PyStr), ([] : List PyStr))).2) ++ [z],
                    hHu.1, hHu.2, ?_, by simp, ?_⟩
                  · intro w hw
                    rcases List.mem_append.mp hw with hw | hw
                    · rcases List.mem_cons.mp hw with hw | hw
                      · exact hstable w (by simp [hw])
                      · rcases hf2 w hw with hw2 | hw2
                        · simp at hw2
                        · exact hstable w (by simp [hw2])
                    · rw [List.mem_singleton] at hw
                      subst hw
                      rcases hf1 with hf | ⟨z2, hz2, hzv⟩
                      · rw [hr1] at hf
                        exact Option.noConfusion hf
                      · rw [hr1] at hz2
                        have hzz := Option.some.inj hz2
                        subst hzz
                        rcases hzv with hz | hz <;>
                          (subst hz; unfold StableTok;
                            exact ⟨by decide, by decide, by decide, by decide⟩)
                  · have hb := buildName hand t0 ((trest.foldl (fun acc tok =>
                        match ROLE_MAP (lowerL tok) with
                        | some rv => if acc.1 = none then (some rv, acc.2) else (acc.1, acc.2 ++ [tok])
                        | none => (acc.1, acc.2 ++ [tok])) ((none : Option PyStr), ([] : List PyStr))).2) (some z)
                    simp only at hb ⊢
                    rw [hb]

/-- C5 (amended): for a legacy name that `rename_hrm` actually rewrites
and whose lower-cased form contains no `tkz`, the rename's output is
already canonical — `canonicalize_bhrm` fixes it. -/
theorem C5_rename_output_canonical (x : PyStr) (hne : rename_hrm x ≠ x)
    (htkz : hasSubB "tkz".data (lowerL x) = false) :
    canonicalize_bhrm (rename_hrm x) = rename_hrm x := by
  rcases rename_form htkz with he | ⟨H, ts, h1, h2, h3, h4, he⟩
  · exact absurd he hne
  · rw [he]
    exact canonicalize_fix H ts h1 h2 h3 h4

/-- Witness for C5 at a concrete legacy name. -/
theorem C5_rename_output_canonical_witness :
    canonicalize_bhrm (rename_hrm "&HRM_left_index_v1".data) =
      rename_hrm "&HRM_left_index_v1".data :=
  C5_rename_output_canonical "&HRM_left_index_v1".data (by decide) (by decide)
